import Mathlib

/-!
# INA219 current monitor driver

A shallow embedding of `INA219_Current_Monitor.h` / `INA219_Current_Monitor.cpp`.

* `uint8_t` / `uint16_t` values are natural numbers, reduced `% 256` / `% 65536`
  wherever the C++ code converts to the narrower type.
* `double` is IEEE-754 binary64 with round-to-nearest-even, modelled exactly on
  integers (`Double`, `roundNearestEven`).  The exponent is not bounded: every value
  the driver computes lies far inside the normal range, so neither overflow nor
  gradual underflow can occur.  (On a target whose `double` is narrower than 64 bits
  the last digits of the numeric results can differ.)
* The `Wire` object is the state `TwoWire`: the transmit and receive buffers of the
  library, the transactions seen on the bus, and the peripheral at the other end,
  a file of 16-bit registers selected by a pointer byte.
* A member function becomes a function of the object (`INA219`) and the bus state
  that returns its result together with the changed state.
-/

/-! ## Binary floating point -/

/-- The integer nearest to `num / den` (with `den ≠ 0`), ties to the even one. -/
def nearestEven (num den : Nat) : Nat :=
  let q := num / den
  let r := num % den
  if 2 * r < den then q else if den < 2 * r then q + 1
  else if q % 2 = 0 then q else q + 1

/-- The number of binary digits of `n`, by halving at most `fuel` times. -/
def bitLengthAux : Nat → Nat → Nat
  | 0, _ => 0
  | fuel + 1, n => if n = 0 then 0 else bitLengthAux fuel (n / 2) + 1

/-- The number of binary digits of `n`: `2 ^ (bitLength n - 1) ≤ n < 2 ^ bitLength n`
for `n ≠ 0`. -/
def bitLength (n : Nat) : Nat := bitLengthAux n n

/-- The exponent `e` of the binade of `n / d` (with `n ≠ 0`, `d ≠ 0`) for a significand
of `prec` bits: `2 ^ (prec - 1) ≤ (n / d) / 2 ^ e < 2 ^ prec`. -/
def binadeExp (prec n d : Nat) : Int :=
  -- n / d lies strictly between 2 ^ (e1 + prec - 1) and 2 ^ (e1 + prec + 1)
  let e1 : Int := (bitLength n : Int) - (bitLength d : Int) - (prec : Int)
  if 2 ^ prec * (d * 2 ^ e1.toNat) ≤ n * 2 ^ (-e1).toNat then e1 + 1 else e1

/-- Round-to-nearest, ties-to-even, of the rational `n / d` (with `d ≠ 0`) to a
significand of `prec` bits.  The result `(m, e)` stands for `m * 2 ^ e`; for `n ≠ 0`
it is normalised, `2 ^ (prec - 1) ≤ m < 2 ^ prec`. -/
def roundNearestEven (prec n d : Nat) : Nat × Int :=
  if n = 0 then (0, 0) else
  let e := binadeExp prec n d
  -- the significand is the integer nearest to (n / d) / 2 ^ e
  let m := nearestEven (n * 2 ^ (-e).toNat) (d * 2 ^ e.toNat)
  if m = 2 ^ prec then (2 ^ (prec - 1), e + 1) else (m, e)

/-- A C++ `double`.  `finite neg man exp` is `(-1) ^ neg * man * 2 ^ exp`. -/
inductive Double
  | finite (neg : Bool) (man : Nat) (exp : Int)
  | inf (neg : Bool)
  | nan
  deriving DecidableEq, Repr

namespace Double

/-- Significand width of binary64. -/
def prec : Nat := 53

/-- The double nearest to `(-1) ^ neg * (n / d) * 2 ^ scale`, for `d ≠ 0`. -/
def round (neg : Bool) (n d : Nat) (scale : Int) : Double :=
  if n = 0 then finite neg 0 0
  else finite neg (roundNearestEven prec n d).1 ((roundNearestEven prec n d).2 + scale)

/-- Conversion of an unsigned integer to `double`. -/
def ofNat (n : Nat) : Double := round false n 1 0

/-- Conversion of a signed integer to `double`. -/
def ofInt (i : Int) : Double := round (decide (i < 0)) i.natAbs 1 0

/-- The decimal literal `num / den`, e.g. `0.04096` is `lit 4096 100000`. -/
def lit (num den : Nat) : Double := round false num den 0

/-- The product `a * b`. -/
def mul : Double → Double → Double
  | finite sa ma ea, finite sb mb eb => round (xor sa sb) (ma * mb) 1 (ea + eb)
  | finite sa ma _, inf sb => if ma = 0 then nan else inf (xor sa sb)
  | inf sa, finite sb mb _ => if mb = 0 then nan else inf (xor sa sb)
  | inf sa, inf sb => inf (xor sa sb)
  | _, _ => nan

/-- The quotient `a / b`; a non-zero value over zero is an infinity. -/
def div : Double → Double → Double
  | finite sa ma ea, finite sb mb eb =>
      if mb = 0 then (if ma = 0 then nan else inf (xor sa sb))
      else round (xor sa sb) ma mb (ea - eb)
  | finite sa _ _, inf sb => finite (xor sa sb) 0 0
  | inf sa, finite sb _ _ => inf (xor sa sb)
  | _, _ => nan

/-- The integer part (truncation toward zero) of a finite double. -/
def trunc : Double → Int
  | finite neg man exp =>
      let t : Nat := if 0 ≤ exp then man * 2 ^ exp.toNat else man / 2 ^ (-exp).toNat
      if neg then -(t : Int) else (t : Int)
  | _ => 0

/-- The conversion `static_cast<uint16_t>(x)`: the integer part of `x`, kept to 16
bits.  C++ leaves the conversion undefined when the integer part is not in
`0 .. 65535`; the model keeps its low 16 bits, as the targets of the library do for
the magnitudes met here, and yields 0 for an infinity or a NaN. -/
def toUInt16 (x : Double) : Nat := (x.trunc % 65536).toNat

/-- The rational value of a finite double (0 for an infinity or a NaN). -/
def toRat : Double → ℚ
  | finite neg man exp => (if neg then -1 else 1) * (man : ℚ) * (2 : ℚ) ^ exp
  | _ => 0

/-- Whether the double is a finite number. -/
def isFinite : Double → Bool
  | finite _ _ _ => true
  | _ => false

end Double

/-! ## The two-wire bus -/

/-- One transaction on the bus. -/
inductive BusEvent
  /-- A write of `payload` to `address`, closed by a stop condition or left open. -/
  | write (address : Nat) (payload : List Nat) (sendStop : Bool)
  /-- A read of `quantity` bytes from `address` that returned `bytes`. -/
  | read (address : Nat) (quantity : Nat) (bytes : List Nat)
  deriving DecidableEq, Repr

/-- Modelled from the spec: the peripheral behind the bus transport, a file of 16-bit
registers.  The first byte of a write selects a register; two more bytes, high byte
first, are stored into it; a read returns the selected register, high byte first. -/
structure RegisterFile where
  pointer : Nat
  regs : Nat → Nat

namespace RegisterFile

/-- The effect of a write transaction carrying `payload`. -/
def onWrite (d : RegisterFile) : List Nat → RegisterFile
  | [p] => { d with pointer := p }
  | [p, hi, lo] =>
      { pointer := p, regs := fun r => if r = p then 256 * hi + lo else d.regs r }
  | _ => d

/-- The bytes a read of `quantity` bytes returns. -/
def onRead (d : RegisterFile) (quantity : Nat) : List Nat :=
  ([d.regs d.pointer / 256 % 256, d.regs d.pointer % 256]).take quantity

end RegisterFile

/-- Modelled from the spec: the bus transport (`Wire`), with the peripheral attached
to it.  `log` lists the transactions seen on the bus, oldest first. -/
structure TwoWire where
  txAddress : Nat
  txBuffer : List Nat
  rxBuffer : List Nat
  log : List BusEvent
  dev : RegisterFile

namespace TwoWire

/-- Modelled from the spec: begin a write transaction to `address`. -/
def beginTransmission (w : TwoWire) (address : Nat) : TwoWire :=
  { w with txAddress := address, txBuffer := [] }

/-- Modelled from the spec: queue one byte for the open transaction. -/
def write (w : TwoWire) (byte : Nat) : TwoWire :=
  { w with txBuffer := w.txBuffer ++ [byte % 256] }

/-- Modelled from the spec: end the transaction, sending the queued bytes, with a
stop condition or (for a repeated start) without. -/
def endTransmission (w : TwoWire) (sendStop : Bool) : TwoWire :=
  { w with
    txBuffer := []
    log := w.log ++ [BusEvent.write w.txAddress w.txBuffer sendStop]
    dev := w.dev.onWrite w.txBuffer }

/-- Modelled from the spec: read `quantity` bytes from `address` into the receive
buffer, in receipt order. -/
def requestFrom (w : TwoWire) (address quantity : Nat) : TwoWire :=
  { w with
    rxBuffer := w.dev.onRead quantity
    log := w.log ++ [BusEvent.read address quantity (w.dev.onRead quantity)] }

/-- Modelled from the spec: take the next received byte; `-1` when there is none. -/
def read (w : TwoWire) : Int × TwoWire :=
  match w.rxBuffer with
  | [] => (-1, w)
  | b :: rest => ((b : Int), { w with rxBuffer := rest })

end TwoWire

/-- Conversion of an `int` to `uint16_t`. -/
def toUInt16 (i : Int) : Nat := (i % 65536).toNat

/-- Conversion of a `uint16_t` to `int16_t` (two's complement). -/
def toInt16 (n : Nat) : Int :=
  if n % 65536 < 32768 then ((n % 65536 : Nat) : Int) else ((n % 65536 : Nat) : Int) - 65536

/-! ## The driver -/

/-- The data members of the class `INA219`. -/
structure INA219 where
  m_i2cAddress : Nat
  m_rShuntValue : Nat
  m_currentLsb : Double

/-- The default device address. -/
def INA219_DEFAULT_ADDRESS : Nat := 0x40

namespace INA219

/-- Registers available in INA219. -/
inductive registers
  | configuration | shuntVoltage | busVoltage | power | current | calibration
  deriving DecidableEq, Repr

/-- Bus voltage range. -/
inductive busVoltageRange
  | V16 | V32
  deriving DecidableEq, Repr

/-- Gain setting of the programmable gain amplifier. -/
inductive pgaGain
  | g1 | g2 | g4 | g8
  deriving DecidableEq, Repr

/-- ADC resolution settings for one sample mode. -/
inductive adcResolution
  | b9 | b10 | b11 | b12
  deriving DecidableEq, Repr

/-- Number of averaged samples for averaging mode. -/
inductive adcAveragedSamples
  | s2 | s4 | s8 | s16 | s32 | s64 | s128
  deriving DecidableEq, Repr

/-- Possible operating modes. -/
inductive operatingMode
  | powerDown
  | shuntVoltage_triggered
  | busVoltage_triggered
  | shuntAndBusVoltage_triggered
  | adcOff
  | shuntVoltage_continuous
  | busVoltage_continuous
  | shuntAndBusVoltage_continuous
  deriving DecidableEq, Repr

/-- The `getEnumValue` template at `registers`. -/
def registers.getEnumValue : registers → Nat
  | .configuration => 0 | .shuntVoltage => 1 | .busVoltage => 2
  | .power => 3 | .current => 4 | .calibration => 5

/-- The `getEnumValue` template at `busVoltageRange`. -/
def busVoltageRange.getEnumValue : busVoltageRange → Nat
  | .V16 => 0 | .V32 => 1

/-- The `getEnumValue` template at `pgaGain`. -/
def pgaGain.getEnumValue : pgaGain → Nat
  | .g1 => 0 | .g2 => 1 | .g4 => 2 | .g8 => 3

/-- The `getEnumValue` template at `adcResolution`. -/
def adcResolution.getEnumValue : adcResolution → Nat
  | .b9 => 0 | .b10 => 1 | .b11 => 2 | .b12 => 3

/-- The `getEnumValue` template at `adcAveragedSamples` (`s2 = 8`, then counting up). -/
def adcAveragedSamples.getEnumValue : adcAveragedSamples → Nat
  | .s2 => 8 | .s4 => 9 | .s8 => 10 | .s16 => 11 | .s32 => 12 | .s64 => 13 | .s128 => 14

/-- The `getEnumValue` template at `operatingMode`. -/
def operatingMode.getEnumValue : operatingMode → Nat
  | .powerDown => 0
  | .shuntVoltage_triggered => 1
  | .busVoltage_triggered => 2
  | .shuntAndBusVoltage_triggered => 3
  | .adcOff => 4
  | .shuntVoltage_continuous => 5
  | .busVoltage_continuous => 6
  | .shuntAndBusVoltage_continuous => 7

/-- Sets value of a selected register. -/
def setRegisterValue (self : INA219) (reg : registers) (registerValue : Nat)
    (w : TwoWire) : TwoWire :=
  let w := w.beginTransmission self.m_i2cAddress
  let w := w.write reg.getEnumValue
  let w := w.write (((registerValue &&& 0xFF00) >>> 8) % 256)
  let w := w.write ((registerValue &&& 0x00FF) % 256)
  w.endTransmission true

/-- Gets value of a selected register. -/
def getRegisterValue (self : INA219) (reg : registers) (w : TwoWire) : Nat × TwoWire :=
  let w := w.beginTransmission self.m_i2cAddress
  let w := w.write reg.getEnumValue
  let w := w.endTransmission false
  let w := w.requestFrom self.m_i2cAddress 2
  let regValue : Nat := toUInt16 w.read.1
  let w := w.read.2
  let regValue : Nat := (regValue <<< 8) % 65536
  let regValue : Nat := toUInt16 (Int.lor (regValue : Int) w.read.1)
  let w := w.read.2
  (regValue, w)

/-- Calculates calibration value; stores the current LSB in the object. -/
def calculateCalibrationValue (self : INA219) (maxExpectedCurrentInMilli : Nat) :
    Nat × INA219 :=
  let m_currentLsb :=
    ((Double.ofNat maxExpectedCurrentInMilli).div (Double.lit 1000 1)).div (Double.ofNat 32768)
  let self := { self with m_currentLsb := m_currentLsb }
  (Double.toUInt16 ((Double.lit 4096 100000).div
      (self.m_currentLsb.mul ((Double.ofNat self.m_rShuntValue).div (Double.lit 1000 1)))),
    self)

/-- Sends a reset command. -/
def resetDevice (self : INA219) (w : TwoWire) : TwoWire :=
  let r := self.getRegisterValue .configuration w
  let currentSettings := r.1
  self.setRegisterValue .configuration ((currentSettings ||| 0x8000) % 65536) r.2

/-- Changes bus voltage range. -/
def setBusVoltageRange (self : INA219) (range : busVoltageRange) (w : TwoWire) : TwoWire :=
  let r := self.getRegisterValue .configuration w
  let currentSettings := r.1 &&& 0xDFFF
  let changedValue := range.getEnumValue
  self.setRegisterValue .configuration ((currentSettings ||| (changedValue <<< 13)) % 65536) r.2

/-- Sets PGA gain. -/
def setPgaGain (self : INA219) (gain : pgaGain) (w : TwoWire) : TwoWire :=
  let r := self.getRegisterValue .configuration w
  let currentSettings := r.1 &&& 0xE7FF
  let changedValue := gain.getEnumValue
  self.setRegisterValue .configuration ((currentSettings ||| (changedValue <<< 11)) % 65536) r.2

/-- Sets ADC resolution (one sample, no averaging), of the bus ADC when `busSetting`
is true and of the shunt ADC otherwise. -/
def setAdcResolution (self : INA219) (resolution : adcResolution) (busSetting : Bool)
    (w : TwoWire) : TwoWire :=
  let r := self.getRegisterValue .configuration w
  let currentSettings := r.1
  let changedValue := resolution.getEnumValue
  let currentSettings := if busSetting then currentSettings &&& 0xF87F
                         else currentSettings &&& 0xFF87
  let changedValue := if busSetting then (changedValue <<< 7) % 65536
                      else (changedValue <<< 3) % 65536
  self.setRegisterValue .configuration (currentSettings ||| changedValue) r.2

/-- Sets number of ADC samples to average, of the bus ADC when `busSetting` is true
and of the shunt ADC otherwise. -/
def setNumberOfAveragedSamples (self : INA219) (samplesNumber : adcAveragedSamples)
    (busSetting : Bool) (w : TwoWire) : TwoWire :=
  let r := self.getRegisterValue .configuration w
  let currentSettings := r.1
  let changedValue := samplesNumber.getEnumValue
  let currentSettings := if busSetting then currentSettings &&& 0xF87F
                         else currentSettings &&& 0xFF87
  let changedValue := if busSetting then (changedValue <<< 7) % 65536
                      else (changedValue <<< 3) % 65536
  self.setRegisterValue .configuration (currentSettings ||| changedValue) r.2

/-- Changes device operating mode. -/
def setOperatingMode (self : INA219) (mode : operatingMode) (w : TwoWire) : TwoWire :=
  let r := self.getRegisterValue .configuration w
  let currentSettings := r.1 &&& 0xFFF8
  self.setRegisterValue .configuration ((currentSettings ||| mode.getEnumValue) % 65536) r.2

/-- Gets shunt voltage in millivolts. -/
def getShuntVoltageValue (self : INA219) (w : TwoWire) : Double × TwoWire :=
  let r := self.getRegisterValue .shuntVoltage w
  ((Double.ofInt (toInt16 r.1)).mul (Double.lit 1 100), r.2)

/-- Gets bus voltage in volts. -/
def getBusVoltageValue (self : INA219) (w : TwoWire) : Double × TwoWire :=
  let r := self.getRegisterValue .busVoltage w
  ((Double.ofNat (r.1 >>> 3)).mul (Double.lit 4 1000), r.2)

/-- Gets state of conversion ready flag. -/
def getConversionReadyState (self : INA219) (w : TwoWire) : Bool × TwoWire :=
  let r := self.getRegisterValue .busVoltage w
  (decide (r.1 &&& 0x0002 ≠ 0), r.2)

/-- Gets state of math overflow flag. -/
def getMathOverflowFlag (self : INA219) (w : TwoWire) : Bool × TwoWire :=
  let r := self.getRegisterValue .busVoltage w
  (decide (r.1 &&& 0x0001 ≠ 0), r.2)

/-- Gets value of power in watts. -/
def getPowerValue (self : INA219) (w : TwoWire) : Double × TwoWire :=
  let r := self.getRegisterValue .power w
  (((Double.ofNat r.1).mul self.m_currentLsb).mul (Double.lit 20 1), r.2)

/-- Gets current value in amperes. -/
def getCurrentValue (self : INA219) (w : TwoWire) : Double × TwoWire :=
  let r := self.getRegisterValue .current w
  ((Double.ofInt (toInt16 r.1)).mul self.m_currentLsb, r.2)

/-- The constructor.  `uninit` is the indeterminate content of `m_currentLsb` before
the constructor body assigns it. -/
def new (uninit : Double) (i2cAddress maxExpectedCurrentInMilli rShuntValueInMilli : Nat)
    (busVoltage : busVoltageRange) (pgaGain : pgaGain) (operatingMode : operatingMode)
    (w : TwoWire) : INA219 × TwoWire :=
  let self : INA219 :=
    { m_i2cAddress := i2cAddress % 256, m_rShuntValue := rShuntValueInMilli % 65536,
      m_currentLsb := uninit }
  let w := self.setBusVoltageRange busVoltage w
  let w := self.setPgaGain pgaGain w
  let w := self.setOperatingMode operatingMode w
  let c := self.calculateCalibrationValue (maxExpectedCurrentInMilli % 65536)
  let self := c.2
  let w := self.setRegisterValue .calibration c.1 w
  (self, w)

/-- Default of the constructor argument `busVoltage`. -/
def defaultBusVoltage : busVoltageRange := .V16

/-- Default of the constructor argument `pgaGain`. -/
def defaultPgaGain : pgaGain := .g4

/-- Default of the constructor argument `operatingMode`. -/
def defaultOperatingMode : operatingMode := .shuntAndBusVoltage_continuous

end INA219

/-! ## Observing the bus -/

/-- The register write a bus transaction performs, if any: a write of three bytes
`[p, hi, lo]` stores the word `256 * hi + lo` into register `p`. -/
def registerWrite? : BusEvent → Option (Nat × Nat)
  | BusEvent.write _ [p, hi, lo] _ => some (p, 256 * hi + lo)
  | _ => none

/-- The register writes among bus transactions, oldest first. -/
def registerWrites (log : List BusEvent) : List (Nat × Nat) :=
  log.filterMap registerWrite?

/-- The register writes that happened between bus state `w` and the later state `w'`. -/
def registerWritesSince (w w' : TwoWire) : List (Nat × Nat) :=
  registerWrites (w'.log.drop w.log.length)

/-- Bus state `w'` comes from `w` by a single register write, to the configuration
register, and the word written (the content of the register in `w'`) agrees with the
word `c` on every bit outside `mask`. -/
def updatesOnly (mask c : Nat) (w w' : TwoWire) : Prop :=
  registerWritesSince w w' = [(0, w'.dev.regs 0)] ∧
  w'.dev.regs 0 &&& (0xFFFF ^^^ mask) = c &&& (0xFFFF ^^^ mask)

/-- The `k`-bit field of the word `x` that starts at bit `s`. -/
def field (x s k : Nat) : Nat := (x >>> s) &&& (2 ^ k - 1)

/-- A bus on which nothing has happened yet; its peripheral holds `c0` in the
configuration register and 0 in the other registers. -/
def TwoWire.fresh (c0 : Nat) : TwoWire :=
  { txAddress := 0, txBuffer := [], rxBuffer := [], log := [],
    dev := { pointer := 0, regs := fun r => if r = 0 then c0 else 0 } }

/-- The relative error that one rounding of binary64 stays within. -/
def Double.eps : ℚ := 1 / 2 ^ 52

/-- The double `x` is finite and positive, with a significand of at most 53 bits, and
within `k` roundings of the rational `v`: `v / (1 + eps) ^ k ≤ x ≤ v * (1 + eps) ^ k`. -/
def Double.Near (k : Nat) (x : Double) (v : ℚ) : Prop :=
  ∃ m e, x = Double.finite false m e ∧ 0 < m ∧ m < 2 ^ 53 ∧
    v ≤ x.toRat * (1 + Double.eps) ^ k ∧ x.toRat ≤ v * (1 + Double.eps) ^ k

/-- The double that `calculateCalibrationValue` converts to `uint16_t`, for the
expected current `I` (mA) and the shunt resistance `R` (mOhm). -/
def calibrationQuotient (I R : Nat) : Double :=
  (Double.lit 4096 100000).div
    ((((Double.ofNat I).div (Double.lit 1000 1)).div (Double.ofNat 32768)).mul
      ((Double.ofNat R).div (Double.lit 1000 1)))

/-- The divisors of 1342177280 = 2 ^ 28 * 5 below 65536. -/
def smallDivisors : List Nat :=
  [1, 2, 4, 8, 16, 32, 64, 128, 256, 512, 1024, 2048, 4096, 8192, 16384, 32768,
   5, 10, 20, 40, 80, 160, 320, 640, 1280, 2560, 5120, 10240, 20480, 40960]

/-! ## The driver as a state machine -/

/-- The driver object together with the bus it talks over. -/
structure System where
  drv : INA219
  bus : TwoWire

/-- A call of a public member function of the driver. -/
inductive Call
  | setRegisterValue (reg : INA219.registers) (registerValue : Nat)
  | getRegisterValue (reg : INA219.registers)
  | calculateCalibrationValue (maxExpectedCurrentInMilli : Nat)
  | resetDevice
  | setBusVoltageRange (range : INA219.busVoltageRange)
  | setPgaGain (gain : INA219.pgaGain)
  | setAdcResolution (resolution : INA219.adcResolution) (busSetting : Bool)
  | setNumberOfAveragedSamples (samplesNumber : INA219.adcAveragedSamples) (busSetting : Bool)
  | setOperatingMode (mode : INA219.operatingMode)
  | getShuntVoltageValue
  | getBusVoltageValue
  | getConversionReadyState
  | getMathOverflowFlag
  | getPowerValue
  | getCurrentValue

namespace Call

/-- The state a call leaves (its result is dropped); `uint16_t` arguments are
converted on the way in. -/
def run : Call → System → System
  | setRegisterValue reg v, s => { s with bus := s.drv.setRegisterValue reg (v % 65536) s.bus }
  | getRegisterValue reg, s => { s with bus := (s.drv.getRegisterValue reg s.bus).2 }
  | calculateCalibrationValue i, s =>
      { s with drv := (s.drv.calculateCalibrationValue (i % 65536)).2 }
  | resetDevice, s => { s with bus := s.drv.resetDevice s.bus }
  | setBusVoltageRange range, s => { s with bus := s.drv.setBusVoltageRange range s.bus }
  | setPgaGain gain, s => { s with bus := s.drv.setPgaGain gain s.bus }
  | setAdcResolution r b, s => { s with bus := s.drv.setAdcResolution r b s.bus }
  | setNumberOfAveragedSamples n b, s =>
      { s with bus := s.drv.setNumberOfAveragedSamples n b s.bus }
  | setOperatingMode mode, s => { s with bus := s.drv.setOperatingMode mode s.bus }
  | getShuntVoltageValue, s => { s with bus := (s.drv.getShuntVoltageValue s.bus).2 }
  | getBusVoltageValue, s => { s with bus := (s.drv.getBusVoltageValue s.bus).2 }
  | getConversionReadyState, s => { s with bus := (s.drv.getConversionReadyState s.bus).2 }
  | getMathOverflowFlag, s => { s with bus := (s.drv.getMathOverflowFlag s.bus).2 }
  | getPowerValue, s => { s with bus := (s.drv.getPowerValue s.bus).2 }
  | getCurrentValue, s => { s with bus := (s.drv.getCurrentValue s.bus).2 }

/-- Every public member function. -/
def any (_ : Call) : Bool := true

/-- The configuration setters and the measurement getters: every public member
function but `setRegisterValue`, `getRegisterValue`, `calculateCalibrationValue` and
`resetDevice`. -/
def isSetterOrGetter : Call → Bool
  | setRegisterValue _ _ => false
  | getRegisterValue _ => false
  | calculateCalibrationValue _ => false
  | resetDevice => false
  | _ => true

end Call

/-- The states reachable from `s0` by calls that satisfy `allowed`. -/
inductive Reachable (allowed : Call → Bool) (s0 : System) : System → Prop
  | start : Reachable allowed s0 s0
  | step (c : Call) (s : System) :
      Reachable allowed s0 s → allowed c = true → Reachable allowed s0 (c.run s)

/-- The state right after construction. -/
def System.constructed (uninit : Double) (i2cAddress maxExpectedCurrentInMilli
    rShuntValueInMilli : Nat) (busVoltage : INA219.busVoltageRange) (pgaGain : INA219.pgaGain)
    (operatingMode : INA219.operatingMode) (w : TwoWire) : System :=
  { drv := (INA219.new uninit i2cAddress maxExpectedCurrentInMilli rShuntValueInMilli
      busVoltage pgaGain operatingMode w).1
    bus := (INA219.new uninit i2cAddress maxExpectedCurrentInMilli rShuntValueInMilli
      busVoltage pgaGain operatingMode w).2 }

/-- The cached currentLsb agrees with the chip: there is a max expected current from
which `calculateCalibrationValue` computes the stored currentLsb, and the calibration
register holds the calibration value `calculateCalibrationValue` derives for it. -/
def CacheConsistent (s : System) : Prop :=
  ∃ i, i < 65536 ∧
    s.drv.m_currentLsb = (s.drv.calculateCalibrationValue i).2.m_currentLsb ∧
    s.bus.dev.regs 5 = (s.drv.calculateCalibrationValue i).1

/-! ## Reads, target fields, signs -/

/-- Bus state `w'` comes from `w` by exactly one register read, of register `p`: the
pointer byte is written without a stop condition, two bytes are read back, there is
no register write, and every register of the peripheral keeps its content. -/
def readsOnly (self : INA219) (p : Nat) (w w' : TwoWire) : Prop :=
  w'.log = w.log ++ [BusEvent.write self.m_i2cAddress [p] false,
    BusEvent.read self.m_i2cAddress 2 [w.dev.regs p / 256 % 256, w.dev.regs p % 256]] ∧
  registerWritesSince w w' = [] ∧
  w'.dev.regs = w.dev.regs

namespace Call

/-- The bits of the configuration register that a configuration setter targets
(`none` for the other member functions). -/
def targetField : Call → Option Nat
  | setBusVoltageRange _ => some 0x2000
  | setPgaGain _ => some 0x1800
  | setAdcResolution _ busSetting => some (if busSetting then 0x0780 else 0x0078)
  | setNumberOfAveragedSamples _ busSetting => some (if busSetting then 0x0780 else 0x0078)
  | setOperatingMode _ => some 0x0007
  | _ => none

/-- The measurement getters. -/
def isGetter : Call → Bool
  | getShuntVoltageValue => true
  | getBusVoltageValue => true
  | getConversionReadyState => true
  | getMathOverflowFlag => true
  | getPowerValue => true
  | getCurrentValue => true
  | _ => false

end Call

namespace Double

/-- The negation `-x`. -/
def neg : Double → Double
  | finite s man exp => finite (!s) man exp
  | inf s => inf (!s)
  | nan => nan

/-- Whether the double is `+0` or `-0`. -/
def isZero : Double → Bool
  | finite _ man _ => decide (man = 0)
  | _ => false

end Double

/-- The 16-bit word `r` read as a two's-complement number: `r` below 0x8000,
`r - 65536` from there on. -/
def signed16 (r : Nat) : Int := if r < 0x8000 then (r : Int) else (r : Int) - 65536

/-- A bus on which nothing has happened yet; its peripheral holds `v` in register `p`
and 0 in the other registers. -/
def TwoWire.holding (p v : Nat) : TwoWire :=
  { txAddress := 0, txBuffer := [], rxBuffer := [], log := [],
    dev := { pointer := 0, regs := fun r => if r = p then v else 0 } }

/-! # Theorems -/

/-! ## Rounding -/

theorem nearestEven_ge (num den : Nat) : num / den ≤ nearestEven num den := by
  unfold nearestEven
  simp only
  split_ifs <;> omega

theorem nearestEven_near (num den : Nat) (hden : 0 < den) :
    2 * (nearestEven num den * den) ≤ 2 * num + den ∧
    2 * num ≤ 2 * (nearestEven num den * den) + den := by
  have h1 := Nat.div_add_mod num den
  have h2 := Nat.mod_lt num hden
  have h3 : (num / den + 1) * den = den * (num / den) + den := by ring
  have h4 : num / den * den = den * (num / den) := by ring
  unfold nearestEven
  simp only
  split_ifs <;> (first | rw [h3] | rw [h4]) <;> omega

theorem nearestEven_rat (num den : Nat) (hden : 0 < den) :
    |(nearestEven num den : ℚ) - (num : ℚ) / den| ≤ 1 / 2 := by
  obtain ⟨h1, h2⟩ := nearestEven_near num den hden
  have hd : (0 : ℚ) < den := by exact_mod_cast hden
  have h1q : (2 : ℚ) * (nearestEven num den * den) ≤ 2 * num + den := by exact_mod_cast h1
  have h2q : (2 : ℚ) * num ≤ 2 * (nearestEven num den * den) + den := by exact_mod_cast h2
  have hx : (num : ℚ) / den * den = num := div_mul_cancel₀ _ hd.ne'
  rw [abs_le]
  constructor
  · apply le_of_mul_le_mul_right _ hd
    rw [sub_mul, hx]
    linarith
  · apply le_of_mul_le_mul_right _ hd
    rw [sub_mul, hx]
    linarith

theorem scaled_ratio (n d : Nat) (hd : 0 < d) (e : Int) :
    ((n * 2 ^ (-e).toNat : Nat) : ℚ) / ((d * 2 ^ e.toNat : Nat) : ℚ) =
      (n : ℚ) / d * (2 : ℚ) ^ (-e) := by
  have hd' : (d : ℚ) ≠ 0 := by exact_mod_cast hd.ne'
  rcases le_total 0 e with h | h
  · have h1 : (-e).toNat = 0 := by omega
    obtain ⟨k, rfl⟩ := Int.eq_ofNat_of_zero_le h
    rw [h1]
    simp only [Int.toNat_ofNat, pow_zero, mul_one, zpow_neg, zpow_natCast]
    push_cast
    field_simp
  · have h1 : e.toNat = 0 := by omega
    obtain ⟨k, hk⟩ := Int.eq_ofNat_of_zero_le (by omega : 0 ≤ -e)
    rw [h1, hk]
    simp only [Int.toNat_ofNat, pow_zero, mul_one, zpow_natCast]
    push_cast
    field_simp

theorem bitLengthAux_zero (fuel : Nat) : bitLengthAux fuel 0 = 0 := by
  cases fuel <;> simp [bitLengthAux]

theorem bitLengthAux_bounds (fuel n : Nat) (h : n ≤ fuel) :
    n < 2 ^ bitLengthAux fuel n ∧ (0 < n → 2 ^ bitLengthAux fuel n ≤ 2 * n) := by
  induction fuel generalizing n with
  | zero =>
    have : n = 0 := by omega
    subst this
    simp [bitLengthAux]
  | succ fuel ih =>
    by_cases hn : n = 0
    · subst hn
      simp [bitLengthAux]
    · obtain ⟨ih1, ih2⟩ := ih (n / 2) (by omega)
      simp only [bitLengthAux, if_neg hn, pow_succ]
      refine ⟨by omega, fun _ => ?_⟩
      by_cases h2 : n / 2 = 0
      · rw [h2, bitLengthAux_zero]
        omega
      · have := ih2 (by omega)
        omega

theorem bitLength_bounds (n : Nat) (hn : 0 < n) :
    n < 2 ^ bitLength n ∧ 2 ^ bitLength n ≤ 2 * n :=
  ⟨(bitLengthAux_bounds n n le_rfl).1, (bitLengthAux_bounds n n le_rfl).2 hn⟩

theorem bitLength_sandwich (n d : Nat) (hn : 0 < n) (hd : 0 < d) :
    n * 2 ^ bitLength d < 2 * (d * 2 ^ bitLength n) ∧
    d * 2 ^ bitLength n < 2 * (n * 2 ^ bitLength d) := by
  obtain ⟨ha1, ha2⟩ := bitLength_bounds n hn
  obtain ⟨hb1, hb2⟩ := bitLength_bounds d hd
  constructor
  · calc n * 2 ^ bitLength d ≤ n * (2 * d) := Nat.mul_le_mul_left _ hb2
      _ < 2 ^ bitLength n * (2 * d) := Nat.mul_lt_mul_of_pos_right ha1 (by omega)
      _ = 2 * (d * 2 ^ bitLength n) := by ring
  · calc d * 2 ^ bitLength n ≤ d * (2 * n) := Nat.mul_le_mul_left _ ha2
      _ < 2 ^ bitLength d * (2 * n) := Nat.mul_lt_mul_of_pos_right hb1 (by omega)
      _ = 2 * (n * 2 ^ bitLength d) := by ring

theorem binadeExp_bounds (prec n d : Nat) (hn : 0 < n) (hd : 0 < d) :
    (2 : ℚ) ^ prec ≤ 2 * ((n : ℚ) / d * (2 : ℚ) ^ (-(binadeExp prec n d))) ∧
    (n : ℚ) / d * (2 : ℚ) ^ (-(binadeExp prec n d)) < (2 : ℚ) ^ prec := by
  obtain ⟨hs1, hs2⟩ := bitLength_sandwich n d hn hd
  have hnq : (0 : ℚ) < n := by exact_mod_cast hn
  have hdq : (0 : ℚ) < d := by exact_mod_cast hd
  have hA : (0 : ℚ) < 2 ^ bitLength n := by positivity
  have hB : (0 : ℚ) < 2 ^ bitLength d := by positivity
  have hP : (0 : ℚ) < 2 ^ prec := by positivity
  have hs1q : (n : ℚ) * 2 ^ bitLength d < 2 * (d * 2 ^ bitLength n) := by exact_mod_cast hs1
  have hs2q : (d : ℚ) * 2 ^ bitLength n < 2 * (n * 2 ^ bitLength d) := by exact_mod_cast hs2
  -- the first guess of the exponent
  set e1 : Int := (bitLength n : Int) - (bitLength d : Int) - (prec : Int) with he1
  have ht : (2 : ℚ) ^ (-e1) = 2 ^ prec * 2 ^ bitLength d / 2 ^ bitLength n := by
    have : -e1 = ((prec : Int) + (bitLength d : Int)) - (bitLength n : Int) := by omega
    rw [this, zpow_sub₀ (by norm_num), zpow_add₀ (by norm_num)]
    simp only [zpow_natCast]
  have hy : (n : ℚ) / d * (2 : ℚ) ^ (-e1) = 2 ^ prec * (n * 2 ^ bitLength d) / (d * 2 ^ bitLength n) := by
    rw [ht]; field_simp; ring
  have hden : (0 : ℚ) < d * 2 ^ bitLength n := by positivity
  have hy1 : (n : ℚ) / d * (2 : ℚ) ^ (-e1) < 2 * 2 ^ prec := by
    rw [hy, div_lt_iff₀ hden]
    nlinarith
  have hy2 : (2 : ℚ) ^ prec < 2 * ((n : ℚ) / d * (2 : ℚ) ^ (-e1)) := by
    rw [hy, ← mul_div_assoc, lt_div_iff₀ hden]
    nlinarith
  have hwide : (2 ^ prec * (d * 2 ^ e1.toNat) ≤ n * 2 ^ (-e1).toNat) ↔
      (2 : ℚ) ^ prec ≤ (n : ℚ) / d * (2 : ℚ) ^ (-e1) := by
    rw [← scaled_ratio n d hd e1]
    have hpos : (0 : ℚ) < ((d * 2 ^ e1.toNat : Nat) : ℚ) := by
      have : 0 < d * 2 ^ e1.toNat := Nat.mul_pos hd (Nat.pow_pos (by norm_num))
      exact_mod_cast this
    rw [le_div_iff₀ hpos]
    constructor
    · intro h; exact_mod_cast h
    · intro h; exact_mod_cast h
  unfold binadeExp
  simp only
  rw [← he1]
  split_ifs with hw
  · rw [hwide] at hw
    have : (2 : ℚ) ^ (-(e1 + 1)) = (2 : ℚ) ^ (-e1) / 2 := by
      rw [neg_add, zpow_add₀ (by norm_num)]
      simp [div_eq_mul_inv]
    rw [this]
    constructor
    · linarith
    · linarith
  · rw [hwide] at hw
    push_neg at hw
    exact ⟨by linarith, hw⟩

theorem roundNearestEven_value (prec n d : Nat) (hp : 0 < prec) (hn : 0 < n) :
    ((roundNearestEven prec n d).1 : ℚ) * (2 : ℚ) ^ (roundNearestEven prec n d).2 =
      (nearestEven (n * 2 ^ (-(binadeExp prec n d)).toNat) (d * 2 ^ (binadeExp prec n d).toNat) : ℚ)
        * (2 : ℚ) ^ (binadeExp prec n d) := by
  unfold roundNearestEven
  rw [if_neg hn.ne']
  simp only
  split_ifs with h
  · rw [h]
    obtain ⟨k, rfl⟩ : ∃ k, prec = k + 1 := ⟨prec - 1, by omega⟩
    simp only [Nat.add_sub_cancel]
    rw [zpow_add₀ (by norm_num)]
    push_cast
    ring
  · rfl

theorem roundNearestEven_rel (prec n d : Nat) (hp : 0 < prec) (hn : 0 < n) (hd : 0 < d) :
    |((roundNearestEven prec n d).1 : ℚ) * (2 : ℚ) ^ (roundNearestEven prec n d).2 - (n : ℚ) / d|
      ≤ (n : ℚ) / d / 2 ^ prec := by
  rw [roundNearestEven_value prec n d hp hn]
  obtain ⟨hb1, _⟩ := binadeExp_bounds prec n d hn hd
  set e := binadeExp prec n d
  have hden : 0 < d * 2 ^ e.toNat := Nat.mul_pos hd (Nat.pow_pos (by norm_num))
  have hm := nearestEven_rat (n * 2 ^ (-e).toNat) (d * 2 ^ e.toNat) hden
  rw [scaled_ratio n d hd e] at hm
  set m : ℚ := (nearestEven (n * 2 ^ (-e).toNat) (d * 2 ^ e.toNat) : ℚ)
  set x : ℚ := (n : ℚ) / d
  have hE : (0 : ℚ) < (2 : ℚ) ^ e := by positivity
  have hP : (0 : ℚ) < (2 : ℚ) ^ prec := by positivity
  have hinv : (2 : ℚ) ^ (-e) * (2 : ℚ) ^ e = 1 := by
    rw [← zpow_add₀ (by norm_num)]; simp
  have hx : x = x * (2 : ℚ) ^ (-e) * (2 : ℚ) ^ e := by rw [mul_assoc, hinv, mul_one]
  have h1 : m * (2 : ℚ) ^ e - x = (m - x * (2 : ℚ) ^ (-e)) * (2 : ℚ) ^ e := by
    rw [sub_mul, ← hx]
  rw [h1, abs_mul, abs_of_pos hE]
  have h2 : x / 2 ^ prec = (x * (2 : ℚ) ^ (-e) / 2 ^ prec) * (2 : ℚ) ^ e := by
    rw [div_mul_eq_mul_div, ← hx]
  rw [h2]
  apply mul_le_mul_of_nonneg_right _ hE.le
  apply le_trans hm
  rw [le_div_iff₀ hP]
  linarith

theorem roundNearestEven_pos (prec n d : Nat) (hp : 0 < prec) (hn : 0 < n) (hd : 0 < d) :
    0 < (roundNearestEven prec n d).1 := by
  obtain ⟨hb1, _⟩ := binadeExp_bounds prec n d hn hd
  have hden : 0 < d * 2 ^ (binadeExp prec n d).toNat := Nat.mul_pos hd (Nat.pow_pos (by norm_num))
  rw [← scaled_ratio n d hd] at hb1
  have hge := nearestEven_ge (n * 2 ^ (-(binadeExp prec n d)).toNat)
    (d * 2 ^ (binadeExp prec n d).toNat)
  have hm := nearestEven_rat (n * 2 ^ (-(binadeExp prec n d)).toNat)
    (d * 2 ^ (binadeExp prec n d).toNat) hden
  unfold roundNearestEven
  rw [if_neg hn.ne']
  simp only
  split_ifs with h
  · exact Nat.pow_pos (by norm_num)
  · by_contra hcon
    have h0 : nearestEven (n * 2 ^ (-(binadeExp prec n d)).toNat)
      (d * 2 ^ (binadeExp prec n d).toNat) = 0 := by omega
    rw [h0] at hm
    have hP : (2 : ℚ) ≤ (2 : ℚ) ^ prec := by
      calc (2 : ℚ) = 2 ^ 1 := by norm_num
        _ ≤ 2 ^ prec := pow_le_pow_right₀ (by norm_num) hp
    rw [abs_le] at hm
    push_cast at hm hb1
    linarith [hm.1, hm.2]

/-! ## Exact operations -/

theorem nearestEven_le (num den : Nat) : nearestEven num den ≤ num / den + 1 := by
  unfold nearestEven
  simp only
  split_ifs <;> omega

theorem nearestEven_of_dvd (y den : Nat) (hden : 0 < den) : nearestEven (y * den) den = y := by
  unfold nearestEven
  simp only
  rw [Nat.mul_div_cancel _ hden, Nat.mul_mod_left]
  rw [if_pos (by omega)]

theorem roundNearestEven_lt (prec n d : Nat) (hp : 0 < prec) (hn : 0 < n) (hd : 0 < d) :
    (roundNearestEven prec n d).1 < 2 ^ prec := by
  obtain ⟨_, hb2⟩ := binadeExp_bounds prec n d hn hd
  have hden : 0 < d * 2 ^ (binadeExp prec n d).toNat := Nat.mul_pos hd (Nat.pow_pos (by norm_num))
  rw [← scaled_ratio n d hd] at hb2
  have hq : n * 2 ^ (-(binadeExp prec n d)).toNat / (d * 2 ^ (binadeExp prec n d).toNat)
      < 2 ^ prec := by
    have h1 : ((n * 2 ^ (-(binadeExp prec n d)).toNat / (d * 2 ^ (binadeExp prec n d).toNat) : Nat) : ℚ)
        ≤ ((n * 2 ^ (-(binadeExp prec n d)).toNat : Nat) : ℚ) /
          ((d * 2 ^ (binadeExp prec n d).toNat : Nat) : ℚ) := Nat.cast_div_le
    have h2 := lt_of_le_of_lt h1 hb2
    exact_mod_cast h2
  have hle := nearestEven_le (n * 2 ^ (-(binadeExp prec n d)).toNat)
    (d * 2 ^ (binadeExp prec n d).toNat)
  unfold roundNearestEven
  rw [if_neg hn.ne']
  simp only
  split_ifs with h
  · exact Nat.pow_lt_pow_right (by norm_num) (by omega)
  · show nearestEven _ _ < 2 ^ prec
    omega

theorem roundNearestEven_exact (prec n d k : Nat) (j : Int) (hp : 0 < prec) (hn : 0 < n)
    (hd : 0 < d) (hk : k < 2 ^ prec) (h : (n : ℚ) / d = (k : ℚ) * (2 : ℚ) ^ j) :
    ((roundNearestEven prec n d).1 : ℚ) * (2 : ℚ) ^ (roundNearestEven prec n d).2 = (n : ℚ) / d := by
  rw [roundNearestEven_value prec n d hp hn]
  obtain ⟨hb1, hb2⟩ := binadeExp_bounds prec n d hn hd
  set e := binadeExp prec n d
  have hden : 0 < d * 2 ^ e.toNat := Nat.mul_pos hd (Nat.pow_pos (by norm_num))
  have hdenq : (0 : ℚ) < ((d * 2 ^ e.toNat : Nat) : ℚ) := by exact_mod_cast hden
  have hkq : (k : ℚ) < 2 ^ prec := by exact_mod_cast hk
  have hk0 : (0 : ℚ) ≤ k := Nat.cast_nonneg k
  -- the scaled value is k * 2 ^ (j - e), and j - e cannot be negative
  have hy : (n : ℚ) / d * (2 : ℚ) ^ (-e) = (k : ℚ) * (2 : ℚ) ^ (j - e) := by
    rw [h, mul_assoc, ← zpow_add₀ (by norm_num)]
    congr 2
  have hje : 0 ≤ j - e := by
    by_contra hcon
    push_neg at hcon
    have h2 : (2 : ℚ) ^ (j - e) ≤ (2 : ℚ) ^ (-1 : Int) :=
      zpow_le_zpow_right₀ (by norm_num) (by omega)
    have h3 : (k : ℚ) * (2 : ℚ) ^ (j - e) ≤ k * (2 : ℚ) ^ (-1 : Int) :=
      mul_le_mul_of_nonneg_left h2 hk0
    rw [hy] at hb1
    norm_num at h3
    linarith
  obtain ⟨t, ht⟩ := Int.eq_ofNat_of_zero_le hje
  have hnat : n * 2 ^ (-e).toNat = (k * 2 ^ t) * (d * 2 ^ e.toNat) := by
    have h4 := scaled_ratio n d hd e
    rw [hy, ht, zpow_natCast, div_eq_iff hdenq.ne'] at h4
    exact_mod_cast h4
  rw [hnat, nearestEven_of_dvd _ _ hden]
  have hval : ((k * 2 ^ t : Nat) : ℚ) = (n : ℚ) / d * (2 : ℚ) ^ (-e) := by
    rw [hy, ht, zpow_natCast]
    push_cast
    ring
  rw [hval, mul_assoc, ← zpow_add₀ (by norm_num)]
  simp

namespace Double

theorem toRat_finite (m : Nat) (e : Int) : (finite false m e).toRat = (m : ℚ) * (2 : ℚ) ^ e := by
  simp [toRat]

theorem round_eq (neg : Bool) (n d : Nat) (s : Int) (hn : 0 < n) :
    round neg n d s =
      finite neg (roundNearestEven prec n d).1 ((roundNearestEven prec n d).2 + s) := by
  unfold round; rw [if_neg hn.ne']

theorem toRat_pos (m : Nat) (e : Int) (hm : 0 < m) : 0 < (finite false m e).toRat := by
  rw [toRat_finite]
  have : (0 : ℚ) < m := by exact_mod_cast hm
  positivity

theorem Near.pos {k : Nat} {x : Double} {v : ℚ} (h : Near k x v) : 0 < v ∧ 0 < x.toRat := by
  obtain ⟨m, e, rfl, hm, _, h1, h2⟩ := h
  have hx := toRat_pos m e hm
  have hE : (0 : ℚ) < (1 + eps) ^ k := by unfold eps; positivity
  refine ⟨?_, hx⟩
  by_contra hv
  push_neg at hv
  have : v * (1 + eps) ^ k ≤ 0 := mul_nonpos_of_nonpos_of_nonneg hv hE.le
  linarith

theorem round_near (n d : Nat) (s : Int) (hn : 0 < n) (hd : 0 < d) :
    Near 1 (round false n d s) ((n : ℚ) / d * (2 : ℚ) ^ s) := by
  have hrel := roundNearestEven_rel prec n d (by decide) hn hd
  have hpos := roundNearestEven_pos prec n d (by decide) hn hd
  have hlt := roundNearestEven_lt prec n d (by decide) hn hd
  rw [round_eq false n d s hn]
  refine ⟨_, _, rfl, hpos, hlt, ?_, ?_⟩
  all_goals
    rw [toRat_finite, pow_one, zpow_add₀ (by norm_num), ← mul_assoc]
    set X : ℚ := ((roundNearestEven prec n d).1 : ℚ) * (2 : ℚ) ^ (roundNearestEven prec n d).2
    set x : ℚ := (n : ℚ) / d
    have hx : 0 < x := div_pos (by exact_mod_cast hn) (by exact_mod_cast hd)
    have hS : (0 : ℚ) < (2 : ℚ) ^ s := by positivity
    rw [abs_le] at hrel
    obtain ⟨hr1, hr2⟩ := hrel
    have hp : x / 2 ^ prec = x * (1 / 2 ^ 53) := by unfold prec; ring
    rw [hp] at hr1 hr2
    unfold eps
    have h1 : (0 : ℚ) ≤ x * (1 / 2 ^ 53) * (1 / 2 ^ 52) := by positivity
    have h2 : (0 : ℚ) ≤ x * (1 / 2 ^ 53) := by positivity
  · have e1 : X * (2 : ℚ) ^ s * (1 + 1 / 2 ^ 52) = (X * (1 + 1 / 2 ^ 52)) * (2 : ℚ) ^ s := by ring
    rw [e1]
    apply mul_le_mul_of_nonneg_right _ hS.le
    nlinarith
  · have e1 : x * (2 : ℚ) ^ s * (1 + 1 / 2 ^ 52) = (x * (1 + 1 / 2 ^ 52)) * (2 : ℚ) ^ s := by ring
    rw [e1]
    apply mul_le_mul_of_nonneg_right _ hS.le
    nlinarith

theorem one_le_E : (1 : ℚ) ≤ 1 + eps := by unfold eps; norm_num

theorem E_pow_pos (k : Nat) : (0 : ℚ) < (1 + eps) ^ k := by unfold eps; positivity

theorem near_of_bounds (z : Double) (t v : ℚ) (k : Nat) (hz : Near 1 z t)
    (h1 : v ≤ t * (1 + eps) ^ k) (h2 : t ≤ v * (1 + eps) ^ k) : Near (k + 1) z v := by
  obtain ⟨m, e, rfl, hm, hm2, hz1, hz2⟩ := hz
  rw [pow_one] at hz1 hz2
  have hE := E_pow_pos k
  have hE1 : (0 : ℚ) < 1 + eps := by linarith [one_le_E]
  refine ⟨m, e, rfl, hm, hm2, ?_, ?_⟩
  · calc v ≤ t * (1 + eps) ^ k := h1
      _ ≤ ((finite false m e).toRat * (1 + eps)) * (1 + eps) ^ k :=
          mul_le_mul_of_nonneg_right hz1 hE.le
      _ = (finite false m e).toRat * (1 + eps) ^ (k + 1) := by ring
  · calc (finite false m e).toRat ≤ t * (1 + eps) := hz2
      _ ≤ (v * (1 + eps) ^ k) * (1 + eps) := mul_le_mul_of_nonneg_right h2 hE1.le
      _ = v * (1 + eps) ^ (k + 1) := by ring

theorem mul_near {a b : Nat} {x y : Double} {v w : ℚ} (hx : Near a x v) (hy : Near b y w) :
    Near (a + b + 1) (x.mul y) (v * w) := by
  obtain ⟨hv, _⟩ := hx.pos
  obtain ⟨hw, _⟩ := hy.pos
  obtain ⟨m1, e1, rfl, hm1, _, hx1, hx2⟩ := hx
  obtain ⟨m2, e2, rfl, hm2, _, hy1, hy2⟩ := hy
  have hX := toRat_pos m1 e1 hm1
  have hY := toRat_pos m2 e2 hm2
  have hEa := E_pow_pos a
  have hEb := E_pow_pos b
  have hz := round_near (m1 * m2) 1 (e1 + e2) (Nat.mul_pos hm1 hm2) (by norm_num)
  have ht : ((m1 * m2 : Nat) : ℚ) / (1 : Nat) * (2 : ℚ) ^ (e1 + e2) =
      (finite false m1 e1).toRat * (finite false m2 e2).toRat := by
    rw [toRat_finite, toRat_finite, zpow_add₀ (by norm_num)]
    push_cast
    ring
  rw [ht] at hz
  have hmul : (finite false m1 e1).mul (finite false m2 e2) =
      round false (m1 * m2) 1 (e1 + e2) := by simp [mul]
  rw [hmul]
  apply near_of_bounds _ _ _ _ hz
  · calc v * w ≤ ((finite false m1 e1).toRat * (1 + eps) ^ a) *
          ((finite false m2 e2).toRat * (1 + eps) ^ b) :=
          mul_le_mul hx1 hy1 hw.le (mul_nonneg hX.le hEa.le)
      _ = (finite false m1 e1).toRat * (finite false m2 e2).toRat * (1 + eps) ^ (a + b) := by
          ring
  · calc (finite false m1 e1).toRat * (finite false m2 e2).toRat
          ≤ (v * (1 + eps) ^ a) * (w * (1 + eps) ^ b) :=
          mul_le_mul hx2 hy2 hY.le (mul_nonneg hv.le hEa.le)
      _ = v * w * (1 + eps) ^ (a + b) := by ring

theorem div_near {a b : Nat} {x y : Double} {v w : ℚ} (hx : Near a x v) (hy : Near b y w) :
    Near (a + b + 1) (x.div y) (v / w) := by
  obtain ⟨hv, _⟩ := hx.pos
  obtain ⟨hw, _⟩ := hy.pos
  obtain ⟨m1, e1, rfl, hm1, _, hx1, hx2⟩ := hx
  obtain ⟨m2, e2, rfl, hm2, _, hy1, hy2⟩ := hy
  have hX := toRat_pos m1 e1 hm1
  have hY := toRat_pos m2 e2 hm2
  have hEa := E_pow_pos a
  have hEb := E_pow_pos b
  have hz := round_near m1 m2 (e1 - e2) hm1 hm2
  have ht : (m1 : ℚ) / (m2 : ℚ) * (2 : ℚ) ^ (e1 - e2) =
      (finite false m1 e1).toRat / (finite false m2 e2).toRat := by
    rw [toRat_finite, toRat_finite, zpow_sub₀ (by norm_num)]
    have : (m2 : ℚ) ≠ 0 := by exact_mod_cast hm2.ne'
    field_simp
  rw [ht] at hz
  have hdiv : (finite false m1 e1).div (finite false m2 e2) =
      round false m1 m2 (e1 - e2) := by simp [div, hm2.ne']
  rw [hdiv]
  apply near_of_bounds _ _ _ _ hz
  · rw [div_le_iff₀ hw]
    calc v ≤ (finite false m1 e1).toRat * (1 + eps) ^ a := hx1
      _ = (finite false m1 e1).toRat / (finite false m2 e2).toRat * (1 + eps) ^ a *
            (finite false m2 e2).toRat := by field_simp
      _ ≤ (finite false m1 e1).toRat / (finite false m2 e2).toRat * (1 + eps) ^ a *
            (w * (1 + eps) ^ b) :=
          mul_le_mul_of_nonneg_left hy2 (mul_nonneg (div_pos hX hY).le hEa.le)
      _ = (finite false m1 e1).toRat / (finite false m2 e2).toRat * (1 + eps) ^ (a + b) * w := by
          ring
  · rw [div_le_iff₀ hY]
    calc (finite false m1 e1).toRat ≤ v * (1 + eps) ^ a := hx2
      _ = v / w * (1 + eps) ^ a * w := by field_simp
      _ ≤ v / w * (1 + eps) ^ a * ((finite false m2 e2).toRat * (1 + eps) ^ b) :=
          mul_le_mul_of_nonneg_left hy1 (mul_nonneg (div_pos hv hw).le hEa.le)
      _ = v / w * (1 + eps) ^ (a + b) * (finite false m2 e2).toRat := by ring

theorem trunc_eq_floor (m : Nat) (e : Int) : (finite false m e).trunc = ⌊(finite false m e).toRat⌋ := by
  rw [toRat_finite]
  unfold trunc
  simp only [Bool.false_eq_true, if_false]
  rcases le_total 0 e with h | h
  · obtain ⟨k, rfl⟩ := Int.eq_ofNat_of_zero_le h
    simp only [Int.ofNat_eq_coe, Nat.cast_nonneg, if_true, Int.toNat_ofNat, zpow_natCast]
    have : ((m : ℚ) * (2 : ℚ) ^ k) = (((m * 2 ^ k : Nat) : Int) : ℚ) := by push_cast; ring
    rw [this, Int.floor_intCast]
  · obtain ⟨k, hk⟩ := Int.eq_ofNat_of_zero_le (by omega : 0 ≤ -e)
    have he : e = -(k : Int) := by omega
    subst he
    by_cases hk0 : k = 0
    · subst hk0
      simp
    · have hneg : ¬ (0 : Int) ≤ -(k : Int) := by omega
      simp only [hneg, if_false, neg_neg, Int.toNat_ofNat, zpow_neg, zpow_natCast]
      rw [← div_eq_mul_inv]
      have h2 : ((2 : ℚ) ^ k) = ((2 ^ k : Nat) : ℚ) := by push_cast; ring
      rw [h2, Rat.floor_natCast_div_natCast]
      simp

/-- A finite positive double with a significand below `2 ^ 53`. -/
theorem round_normal (n d : Nat) (s : Int) (hn : 0 < n) (hd : 0 < d) :
    ∃ m e, round false n d s = finite false m e ∧ 0 < m ∧ m < 2 ^ 53 :=
  ⟨_, _, round_eq false n d s hn, roundNearestEven_pos prec n d (by decide) hn hd,
    roundNearestEven_lt prec n d (by decide) hn hd⟩

theorem round_exact (n d k : Nat) (s j : Int) (hn : 0 < n) (hd : 0 < d) (hk : k < 2 ^ 53)
    (h : (n : ℚ) / d = (k : ℚ) * (2 : ℚ) ^ j) :
    (round false n d s).toRat = (n : ℚ) / d * (2 : ℚ) ^ s := by
  rw [round_eq false n d s hn, toRat_finite, zpow_add₀ (by norm_num), ← mul_assoc,
    roundNearestEven_exact prec n d k j (by decide) hn hd hk h]

theorem ofNat_exact (n : Nat) (hn : 0 < n) (h : n < 2 ^ 53) : (ofNat n).toRat = n := by
  have := round_exact n 1 n 0 0 hn (by norm_num) h (by simp)
  simpa [ofNat] using this

/-- Division by a power of two is exact. -/
theorem div_two_pow_exact (x : Double) (m : Nat) (e : Int) (p : Nat) (hx : x = finite false m e)
    (hm : 0 < m) (hm2 : m < 2 ^ 53) (hp2 : p < 53) :
    (x.div (ofNat (2 ^ p))).toRat = x.toRat / 2 ^ p ∧
    ∃ m' e', x.div (ofNat (2 ^ p)) = finite false m' e' ∧ 0 < m' ∧ m' < 2 ^ 53 := by
  have hpos : 0 < 2 ^ p := Nat.pow_pos (by norm_num)
  have hlt : 2 ^ p < 2 ^ 53 := Nat.pow_lt_pow_right (by norm_num) hp2
  obtain ⟨m2, e2, h2, hm2pos, hm2lt⟩ := round_normal (2 ^ p) 1 0 hpos (by norm_num)
  have hval := ofNat_exact (2 ^ p) hpos hlt
  have hof : ofNat (2 ^ p) = finite false m2 e2 := h2
  rw [hof, toRat_finite] at hval
  subst hx
  have hdiv : (finite false m e).div (finite false m2 e2) = round false m m2 (e - e2) := by
    simp [div, hm2pos.ne']
  have hm2q : (m2 : ℚ) ≠ 0 := by exact_mod_cast hm2pos.ne'
  have hE2 : (2 : ℚ) ^ e2 ≠ 0 := by positivity
  have hratio : (m : ℚ) / m2 = (m : ℚ) * (2 : ℚ) ^ (e2 - p) := by
    have : (m2 : ℚ) = 2 ^ p / (2 : ℚ) ^ e2 := by
      rw [eq_div_iff hE2, hval]; push_cast; ring
    rw [this, zpow_sub₀ (by norm_num), zpow_natCast]
    field_simp
  rw [hof, hdiv]
  refine ⟨?_, ?_⟩
  · rw [round_exact m m2 m (e - e2) (e2 - p) hm hm2pos hm2 hratio, toRat_finite, hratio,
      zpow_sub₀ (by norm_num), zpow_sub₀ (by norm_num), zpow_natCast]
    field_simp
    ring
  · exact round_normal m m2 (e - e2) hm hm2pos

theorem ofNat_near (n : Nat) (hn : 0 < n) (h : n < 2 ^ 53) : Near 0 (ofNat n) n := by
  obtain ⟨m, e, hx, hm, hm2⟩ := round_normal n 1 0 hn (by norm_num)
  have hv := ofNat_exact n hn h
  refine ⟨m, e, hx, hm, hm2, ?_, ?_⟩ <;> rw [hv] <;> simp

theorem lit_near (num den : Nat) (hn : 0 < num) (hd : 0 < den) :
    Near 1 (lit num den) ((num : ℚ) / den) := by
  have h := round_near num den 0 hn hd
  simpa [lit] using h

theorem div_two_pow_near {k : Nat} {x : Double} {v : ℚ} (p : Nat) (hp : p < 53)
    (h : Near k x v) : Near k (x.div (ofNat (2 ^ p))) (v / 2 ^ p) := by
  obtain ⟨m, e, hx, hm, hm2, h1, h2⟩ := h
  obtain ⟨hval, m', e', hx', hm', hm2'⟩ := div_two_pow_exact x m e p hx hm hm2 hp
  have hP : (0 : ℚ) < 2 ^ p := by positivity
  refine ⟨m', e', hx', hm', hm2', ?_, ?_⟩
  · rw [hval, div_mul_eq_mul_div]
    exact div_le_div_of_nonneg_right h1 hP.le
  · rw [hval, div_mul_eq_mul_div]
    exact div_le_div_of_nonneg_right h2 hP.le

end Double

/-! ## The calibration value -/

theorem currentLsb_near (I : Nat) (hI : 0 < I) (hI2 : I < 65536) :
    Double.Near 1 (((Double.ofNat I).div (Double.lit 1000 1)).div (Double.ofNat 32768))
      ((I : ℚ) / 1000 / 32768) := by
  have h1 := Double.div_near (Double.ofNat_near I hI (by omega))
    (Double.ofNat_near 1000 (by norm_num) (by norm_num))
  have h2 := Double.div_two_pow_near 15 (by norm_num) h1
  have e1 : Double.ofNat (2 ^ 15) = Double.ofNat 32768 := rfl
  have e2 : Double.lit 1000 1 = Double.ofNat 1000 := rfl
  rw [e1] at h2
  rw [e2]
  simpa using h2

theorem calibrationQuotient_near (I R : Nat) (hI : 0 < I) (hI2 : I < 65536) (hR : 0 < R)
    (hR2 : R < 65536) :
    Double.Near 5 (calibrationQuotient I R) ((1342177280 : ℚ) / ((I : ℚ) * R)) := by
  have h1 := currentLsb_near I hI hI2
  have h2 := Double.div_near (Double.ofNat_near R hR (by omega))
    (Double.ofNat_near 1000 (by norm_num) (by norm_num))
  have h3 := Double.mul_near h1 h2
  have h4 := Double.div_near (Double.lit_near 4096 100000 (by norm_num) (by norm_num)) h3
  have hIq : (I : ℚ) ≠ 0 := by exact_mod_cast hI.ne'
  have hRq : (R : ℚ) ≠ 0 := by exact_mod_cast hR.ne'
  have hv : ((4096 : Nat) : ℚ) / ((100000 : Nat) : ℚ) /
      ((I : ℚ) / 1000 / 32768 * ((R : ℚ) / ((1000 : Nat) : ℚ))) =
      (1342177280 : ℚ) / ((I : ℚ) * R) := by
    push_cast
    field_simp
    ring
  rw [hv] at h4
  exact h4

theorem five_roundings :
    ((1342177280 : ℚ) - 1) * (1 + Double.eps) ^ 5 ≤ 1342177280 ∧
    (1342177280 : ℚ) * (1 + Double.eps) ^ 5 < 1342177280 + 1 := by
  unfold Double.eps
  constructor <;> norm_num

theorem calibrationQuotient_floor_of_not_dvd (I R : Nat) (hI : 0 < I) (hI2 : I < 65536)
    (hR : 0 < R) (hR2 : R < 65536) (hnd : ¬ (I * R ∣ 1342177280)) :
    ⌊(calibrationQuotient I R).toRat⌋ = ((1342177280 / (I * R) : Nat) : Int) := by
  obtain ⟨m, e, hq, hm, _, h1, h2⟩ := calibrationQuotient_near I R hI hI2 hR hR2
  obtain ⟨hE1, hE2⟩ := five_roundings
  set X : ℚ := (calibrationQuotient I R).toRat
  set E : ℚ := (1 + Double.eps) ^ 5
  have hEpos : 0 < E := Double.E_pow_pos 5
  have hP : 0 < I * R := Nat.mul_pos hI hR
  have hPq : (0 : ℚ) < (I : ℚ) * R := by exact_mod_cast hP
  -- 1342177280 = P * Q0 + r with 0 < r < P
  have hdm := Nat.div_add_mod 1342177280 (I * R)
  have hr1 : 0 < 1342177280 % (I * R) := by
    rcases Nat.eq_zero_or_pos (1342177280 % (I * R)) with h | h
    · exact absurd (Nat.dvd_of_mod_eq_zero h) hnd
    · exact h
  have hr2 := Nat.mod_lt 1342177280 hP
  set Q0 := 1342177280 / (I * R)
  set r := 1342177280 % (I * R)
  have hlo : (I : ℚ) * R * Q0 + 1 ≤ 1342177280 := by
    have : I * R * Q0 + 1 ≤ 1342177280 := by omega
    exact_mod_cast this
  have hhi : (1342177280 : ℚ) + 1 ≤ (I : ℚ) * R * (Q0 + 1) := by
    have : 1342177280 + 1 ≤ I * R * (Q0 + 1) := by
      rw [Nat.mul_add, Nat.mul_one]; omega
    exact_mod_cast this
  rw [div_le_iff₀ hPq] at h1
  have h2' : X * ((I : ℚ) * R) ≤ 1342177280 * E := by
    have := mul_le_mul_of_nonneg_right h2 hPq.le
    rwa [mul_right_comm, div_mul_cancel₀ _ hPq.ne'] at this
  rw [Int.floor_eq_iff]
  constructor
  · by_contra hcon
    push_neg at hcon
    have hQ : ((Q0 : Int) : ℚ) = (Q0 : ℚ) := by norm_cast
    rw [hQ] at hcon
    have h3 : X * E * ((I : ℚ) * R) < (Q0 : ℚ) * E * ((I : ℚ) * R) :=
      mul_lt_mul_of_pos_right (mul_lt_mul_of_pos_right hcon hEpos) hPq
    have h4 : (Q0 : ℚ) * E * ((I : ℚ) * R) ≤ (1342177280 - 1) * E := by
      have : (Q0 : ℚ) * E * ((I : ℚ) * R) = ((I : ℚ) * R * Q0) * E := by ring
      rw [this]
      exact mul_le_mul_of_nonneg_right (by linarith) hEpos.le
    linarith
  · have hQ : ((Q0 : Int) : ℚ) = (Q0 : ℚ) := by norm_cast
    rw [hQ]
    have h3 : X * ((I : ℚ) * R) < ((Q0 : ℚ) + 1) * ((I : ℚ) * R) := by
      calc X * ((I : ℚ) * R) ≤ 1342177280 * E := h2'
        _ < 1342177280 + 1 := hE2
        _ ≤ (I : ℚ) * R * (Q0 + 1) := hhi
        _ = ((Q0 : ℚ) + 1) * ((I : ℚ) * R) := by ring
    exact lt_of_mul_lt_mul_right h3 hPq.le

theorem mem_smallDivisors (I : Nat) (hI : I < 65536) (hd : I ∣ 1342177280) :
    I ∈ smallDivisors := by
  have hN : (1342177280 : Nat) = 2 ^ 28 * 5 := by norm_num
  rw [hN, Nat.dvd_mul] at hd
  obtain ⟨y, z, hy, hz, rfl⟩ := hd
  obtain ⟨a, _, rfl⟩ := (Nat.dvd_prime_pow Nat.prime_two).1 hy
  have hz' := (Nat.dvd_prime Nat.prime_five).1 hz
  have ha : a < 16 := by
    by_contra hcon
    have h16 : 2 ^ 16 ≤ 2 ^ a := Nat.pow_le_pow_right (by norm_num) (by omega)
    have hzpos : 1 ≤ z := by rcases hz' with h | h <;> omega
    have : 2 ^ a * 1 ≤ 2 ^ a * z := Nat.mul_le_mul_left _ hzpos
    omega
  rcases hz' with rfl | rfl
  · interval_cases a <;> simp [smallDivisors]
  · have ha2 : a < 14 := by
      by_contra hcon
      have h14 : 2 ^ 14 ≤ 2 ^ a := Nat.pow_le_pow_right (by norm_num) (by omega)
      omega
    interval_cases a <;> simp [smallDivisors]

set_option maxRecDepth 1000000 in
set_option maxHeartbeats 4000000 in
theorem calibrationQuotient_trunc_smallDivisors : ∀ I ∈ smallDivisors, ∀ R ∈ smallDivisors,
    (calibrationQuotient I R).trunc = ((1342177280 / (I * R) : Nat) : Int) := by
  decide!

theorem calibrationQuotient_trunc (I R : Nat) (hI : 0 < I) (hI2 : I < 65536) (hR : 0 < R)
    (hR2 : R < 65536) :
    (calibrationQuotient I R).trunc = ((1342177280 / (I * R) : Nat) : Int) := by
  by_cases hd : I * R ∣ 1342177280
  · exact calibrationQuotient_trunc_smallDivisors I
      (mem_smallDivisors I hI2 (Dvd.dvd.trans (Dvd.intro _ rfl) hd)) R
      (mem_smallDivisors R hR2 (Dvd.dvd.trans (Dvd.intro_left _ rfl) hd))
  · obtain ⟨m, e, hq, _, _, _, _⟩ := calibrationQuotient_near I R hI hI2 hR hR2
    have h := calibrationQuotient_floor_of_not_dvd I R hI hI2 hR hR2 hd
    rw [hq] at h ⊢
    rw [Double.trunc_eq_floor]
    exact h

set_option maxRecDepth 100000 in
theorem toUInt16_quotient_3200_100 : Double.toUInt16 (calibrationQuotient 3200 100) = 4194 := by
  decide

set_option maxRecDepth 100000 in
theorem toUInt16_quotient_1000_100 : Double.toUInt16 (calibrationQuotient 1000 100) = 13421 := by
  decide

theorem currentLsb_3200 :
    ((Double.ofNat 3200).div (Double.lit 1000 1)).div (Double.ofNat 32768) =
      Double.finite false 7205759403792794 (-66) := by decide

/-! ## Bytes and words -/

theorem byte_high (v : Nat) : ((v &&& 0xFF00) >>> 8) % 256 = v / 256 % 256 := by
  apply Nat.eq_of_testBit_eq
  intro i
  have h1 : (256 : Nat) = 2 ^ 8 := by norm_num
  rw [h1, Nat.testBit_mod_two_pow, Nat.testBit_mod_two_pow, Nat.testBit_shiftRight,
    Nat.testBit_and, ← Nat.shiftRight_eq_div_pow, Nat.testBit_shiftRight]
  by_cases hi : i < 8
  · have h2 : Nat.testBit 0xFF00 (8 + i) = true := by
      interval_cases i <;> decide
    simp [hi, h2]
  · simp [hi]

theorem byte_low (v : Nat) : (v &&& 0x00FF) % 256 = v % 256 := by
  have h : (0x00FF : Nat) = 2 ^ 8 - 1 := by norm_num
  rw [h, Nat.and_pow_two_sub_one_eq_mod]
  norm_num

theorem word_assemble (b0 b1 : Nat) (h0 : b0 < 256) (h1 : b1 < 256) :
    toUInt16 (Int.lor (((toUInt16 (b0 : Int) <<< 8) % 65536 : Nat) : Int) (b1 : Int))
      = 256 * b0 + b1 := by
  have e0 : toUInt16 (b0 : Int) = b0 := by
    unfold toUInt16; omega
  rw [e0, Nat.shiftLeft_eq]
  have e1 : b0 * 2 ^ 8 % 65536 = 2 ^ 8 * b0 := by omega
  rw [e1]
  have e2 : Int.lor ((2 ^ 8 * b0 : Nat) : Int) (b1 : Int) = ((2 ^ 8 * b0 ||| b1 : Nat) : Int) := rfl
  rw [e2, ← Nat.mul_add_lt_is_or (by omega) b0]
  unfold toUInt16; omega

namespace INA219

theorem getRegisterValue_fst (self : INA219) (reg : registers) (w : TwoWire) :
    (self.getRegisterValue reg w).1 = w.dev.regs reg.getEnumValue % 65536 := by
  have hreg : reg.getEnumValue % 256 = reg.getEnumValue := by cases reg <;> rfl
  simp only [getRegisterValue, TwoWire.beginTransmission, TwoWire.write, TwoWire.endTransmission,
    TwoWire.requestFrom, TwoWire.read, RegisterFile.onWrite, RegisterFile.onRead,
    List.nil_append, List.take, hreg]
  rw [word_assemble _ _ (Nat.mod_lt _ (by norm_num)) (Nat.mod_lt _ (by norm_num))]
  omega

theorem getRegisterValue_snd (self : INA219) (reg : registers) (w : TwoWire) :
    (self.getRegisterValue reg w).2 =
      { txAddress := self.m_i2cAddress, txBuffer := [], rxBuffer := [],
        log := w.log ++ [BusEvent.write self.m_i2cAddress [reg.getEnumValue] false,
          BusEvent.read self.m_i2cAddress 2
            [w.dev.regs reg.getEnumValue / 256 % 256, w.dev.regs reg.getEnumValue % 256]],
        dev := { pointer := reg.getEnumValue, regs := w.dev.regs } } := by
  have hreg : reg.getEnumValue % 256 = reg.getEnumValue := by cases reg <;> rfl
  simp [getRegisterValue, TwoWire.beginTransmission, TwoWire.write, TwoWire.endTransmission,
    TwoWire.requestFrom, TwoWire.read, RegisterFile.onWrite, RegisterFile.onRead, hreg]

theorem setRegisterValue_eq (self : INA219) (reg : registers) (v : Nat) (w : TwoWire) :
    self.setRegisterValue reg v w =
      { txAddress := self.m_i2cAddress, txBuffer := [], rxBuffer := w.rxBuffer,
        log := w.log ++ [BusEvent.write self.m_i2cAddress
          [reg.getEnumValue, v / 256 % 256, v % 256] true],
        dev := { pointer := reg.getEnumValue,
                 regs := fun r => if r = reg.getEnumValue then 256 * (v / 256 % 256) + v % 256
                                  else w.dev.regs r } } := by
  have hreg : reg.getEnumValue % 256 = reg.getEnumValue := by cases reg <;> rfl
  simp [setRegisterValue, TwoWire.beginTransmission, TwoWire.write, TwoWire.endTransmission,
    RegisterFile.onWrite, hreg, byte_high, byte_low]

end INA219

theorem mask_frame (c m v : Nat) (h : v &&& m = 0) : ((c &&& m) ||| v) &&& m = c &&& m := by
  apply Nat.eq_of_testBit_eq
  intro i
  have hi : (v &&& m).testBit i = false := by rw [h]; simp
  rw [Nat.testBit_and] at hi
  simp only [Nat.testBit_and, Nat.testBit_or]
  cases hc : c.testBit i <;> cases hm : m.testBit i <;> cases hv : v.testBit i <;> simp_all

theorem testBit_false_of_lt_two_pow (v k i : Nat) (hv : v < 2 ^ k) (hi : k ≤ i) :
    v.testBit i = false :=
  Nat.testBit_lt_two_pow (lt_of_lt_of_le hv (Nat.pow_le_pow_right (by norm_num) hi))

theorem mask_field (c m v s k : Nat) (hv : v < 2 ^ k) (hm : (m >>> s) &&& (2 ^ k - 1) = 0) :
    (((c &&& m) ||| (v <<< s)) >>> s) &&& (2 ^ k - 1) = v := by
  apply Nat.eq_of_testBit_eq
  intro i
  have h1 : ((m >>> s) &&& (2 ^ k - 1)).testBit i = false := by rw [hm]; simp
  simp only [Nat.testBit_and, Nat.testBit_shiftRight, Nat.testBit_two_pow_sub_one] at h1
  simp only [Nat.testBit_and, Nat.testBit_or, Nat.testBit_shiftRight, Nat.testBit_shiftLeft,
    Nat.testBit_two_pow_sub_one]
  by_cases hik : i < k
  · simp only [hik, decide_True, Bool.and_true] at h1 ⊢
    simp [h1]
  · rw [testBit_false_of_lt_two_pow v k i hv (by omega)]
    simp [hik]

theorem word_or_lt (a b : Nat) (ha : a < 65536) (hb : b < 65536) : (a ||| b) % 65536 = a ||| b :=
  Nat.mod_eq_of_lt (Nat.or_lt_two_pow (n := 16) ha hb)

namespace INA219

theorem rmw_log (self : INA219) (v : Nat) (w : TwoWire) :
    (self.setRegisterValue .configuration v (self.getRegisterValue .configuration w).2).log =
      w.log ++ [BusEvent.write self.m_i2cAddress [0] false,
        BusEvent.read self.m_i2cAddress 2 [w.dev.regs 0 / 256 % 256, w.dev.regs 0 % 256],
        BusEvent.write self.m_i2cAddress [0, v / 256 % 256, v % 256] true] := by
  rw [setRegisterValue_eq, getRegisterValue_snd]
  simp [registers.getEnumValue]

theorem rmw_regs (self : INA219) (v : Nat) (w : TwoWire) (r : Nat) :
    (self.setRegisterValue .configuration v (self.getRegisterValue .configuration w).2).dev.regs r =
      if r = 0 then v % 65536 else w.dev.regs r := by
  rw [setRegisterValue_eq, getRegisterValue_snd]
  simp only [registers.getEnumValue]
  split
  · omega
  · rfl

theorem rmw_writes (self : INA219) (v : Nat) (w : TwoWire) :
    registerWritesSince w
      (self.setRegisterValue .configuration v (self.getRegisterValue .configuration w).2) =
      [(0, v % 65536)] := by
  unfold registerWritesSince
  rw [rmw_log, List.drop_left]
  simp only [registerWrites, List.filterMap, registerWrite?, List.cons.injEq, Prod.mk.injEq, true_and, and_true]
  omega

theorem config_read_lt (self : INA219) (w : TwoWire) :
    (self.getRegisterValue .configuration w).1 < 65536 := by
  rw [getRegisterValue_fst]
  exact Nat.mod_lt _ (by norm_num)

theorem field_word (c m v : Nat) (hc : c < 65536) (hv : v < 65536) :
    ((c &&& m) ||| v) % 65536 = (c &&& m) ||| v :=
  word_or_lt _ _ (lt_of_le_of_lt Nat.and_le_left hc) hv

end INA219

namespace INA219

theorem rmw_value (self : INA219) (w : TwoWire) (m v : Nat) (hv2 : v < 65536) :
    (self.setRegisterValue .configuration
        ((((self.getRegisterValue .configuration w).1 &&& m) ||| v) % 65536)
        (self.getRegisterValue .configuration w).2).dev.regs 0 =
      ((self.getRegisterValue .configuration w).1 &&& m) ||| v := by
  rw [rmw_regs]
  simp only [if_true, Nat.mod_mod]
  exact field_word _ _ _ (config_read_lt self w) hv2

theorem updatesOnly_rmw (self : INA219) (w : TwoWire) (mask m v : Nat)
    (hm : 0xFFFF ^^^ mask = m) (hv : v &&& m = 0) (hv2 : v < 65536) :
    updatesOnly mask (self.getRegisterValue .configuration w).1 w
      (self.setRegisterValue .configuration
        ((((self.getRegisterValue .configuration w).1 &&& m) ||| v) % 65536)
        (self.getRegisterValue .configuration w).2) := by
  have hval := rmw_value self w m v hv2
  refine ⟨?_, ?_⟩
  · rw [rmw_writes, hval, Nat.mod_mod, field_word _ _ _ (config_read_lt self w) hv2]
  · rw [hval, hm]
    exact mask_frame _ _ _ hv

theorem setBusVoltageRange_eq (self : INA219) (range : busVoltageRange) (w : TwoWire) :
    self.setBusVoltageRange range w = self.setRegisterValue .configuration
      ((((self.getRegisterValue .configuration w).1 &&& 0xDFFF) |||
        (range.getEnumValue <<< 13)) % 65536) (self.getRegisterValue .configuration w).2 := rfl

theorem setPgaGain_eq (self : INA219) (gain : pgaGain) (w : TwoWire) :
    self.setPgaGain gain w = self.setRegisterValue .configuration
      ((((self.getRegisterValue .configuration w).1 &&& 0xE7FF) |||
        (gain.getEnumValue <<< 11)) % 65536) (self.getRegisterValue .configuration w).2 := rfl

theorem setOperatingMode_eq (self : INA219) (mode : operatingMode) (w : TwoWire) :
    self.setOperatingMode mode w = self.setRegisterValue .configuration
      ((((self.getRegisterValue .configuration w).1 &&& 0xFFF8) |||
        (mode.getEnumValue <<< 0)) % 65536) (self.getRegisterValue .configuration w).2 := rfl

theorem adc_eq (self : INA219) (code : Nat) (hcode : code < 16) (busSetting : Bool)
    (w : TwoWire) :
    self.setRegisterValue .configuration
      ((if busSetting then (self.getRegisterValue .configuration w).1 &&& 0xF87F
          else (self.getRegisterValue .configuration w).1 &&& 0xFF87) |||
        (if busSetting then (code <<< 7) % 65536 else (code <<< 3) % 65536))
      (self.getRegisterValue .configuration w).2 =
    self.setRegisterValue .configuration
      ((((self.getRegisterValue .configuration w).1 &&& (if busSetting then 0xF87F else 0xFF87)) |||
        (code <<< (if busSetting then 7 else 3))) % 65536)
      (self.getRegisterValue .configuration w).2 := by
  have h7 : code <<< 7 < 65536 := by rw [Nat.shiftLeft_eq]; omega
  have h3 : code <<< 3 < 65536 := by rw [Nat.shiftLeft_eq]; omega
  cases busSetting
  · simp only [Bool.false_eq_true, if_false]
    rw [Nat.mod_eq_of_lt h3, field_word _ _ _ (config_read_lt self w) h3]
  · simp only [if_true]
    rw [Nat.mod_eq_of_lt h7, field_word _ _ _ (config_read_lt self w) h7]

theorem setAdcResolution_eq (self : INA219) (resolution : adcResolution) (busSetting : Bool)
    (w : TwoWire) :
    self.setAdcResolution resolution busSetting w = self.setRegisterValue .configuration
      ((((self.getRegisterValue .configuration w).1 &&& (if busSetting then 0xF87F else 0xFF87)) |||
        (resolution.getEnumValue <<< (if busSetting then 7 else 3))) % 65536)
      (self.getRegisterValue .configuration w).2 :=
  adc_eq self _ (by cases resolution <;> decide) busSetting w

theorem setNumberOfAveragedSamples_eq (self : INA219) (samplesNumber : adcAveragedSamples)
    (busSetting : Bool) (w : TwoWire) :
    self.setNumberOfAveragedSamples samplesNumber busSetting w =
    self.setRegisterValue .configuration
      ((((self.getRegisterValue .configuration w).1 &&& (if busSetting then 0xF87F else 0xFF87)) |||
        (samplesNumber.getEnumValue <<< (if busSetting then 7 else 3))) % 65536)
      (self.getRegisterValue .configuration w).2 :=
  adc_eq self _ (by cases samplesNumber <;> decide) busSetting w

theorem updatesOnly_setBusVoltageRange (self : INA219) (w : TwoWire) (range : busVoltageRange) :
    updatesOnly 0x2000 (self.getRegisterValue .configuration w).1 w
      (self.setBusVoltageRange range w) := by
  rw [setBusVoltageRange_eq]
  exact updatesOnly_rmw self w _ _ _ (by decide) (by cases range <;> decide)
    (by cases range <;> decide)

theorem updatesOnly_setPgaGain (self : INA219) (w : TwoWire) (gain : pgaGain) :
    updatesOnly 0x1800 (self.getRegisterValue .configuration w).1 w (self.setPgaGain gain w) := by
  rw [setPgaGain_eq]
  exact updatesOnly_rmw self w _ _ _ (by decide) (by cases gain <;> decide)
    (by cases gain <;> decide)

theorem updatesOnly_setAdcResolution (self : INA219) (w : TwoWire) (resolution : adcResolution)
    (busSetting : Bool) :
    updatesOnly (if busSetting then 0x0780 else 0x0078)
      (self.getRegisterValue .configuration w).1 w
      (self.setAdcResolution resolution busSetting w) := by
  rw [setAdcResolution_eq]
  cases busSetting
  · exact updatesOnly_rmw self w _ _ _ (by decide) (by cases resolution <;> decide)
      (by cases resolution <;> decide)
  · exact updatesOnly_rmw self w _ _ _ (by decide) (by cases resolution <;> decide)
      (by cases resolution <;> decide)

theorem updatesOnly_setNumberOfAveragedSamples (self : INA219) (w : TwoWire)
    (samplesNumber : adcAveragedSamples) (busSetting : Bool) :
    updatesOnly (if busSetting then 0x0780 else 0x0078)
      (self.getRegisterValue .configuration w).1 w
      (self.setNumberOfAveragedSamples samplesNumber busSetting w) := by
  rw [setNumberOfAveragedSamples_eq]
  cases busSetting
  · exact updatesOnly_rmw self w _ _ _ (by decide) (by cases samplesNumber <;> decide)
      (by cases samplesNumber <;> decide)
  · exact updatesOnly_rmw self w _ _ _ (by decide) (by cases samplesNumber <;> decide)
      (by cases samplesNumber <;> decide)

theorem updatesOnly_setOperatingMode (self : INA219) (w : TwoWire) (mode : operatingMode) :
    updatesOnly 0x0007 (self.getRegisterValue .configuration w).1 w
      (self.setOperatingMode mode w) := by
  rw [setOperatingMode_eq]
  exact updatesOnly_rmw self w _ _ _ (by decide) (by cases mode <;> decide)
    (by cases mode <;> decide)

/-- C1. Each configuration setter performs a single register write, to the
configuration register, and the word it writes agrees with the word `c` read from that
register on every bit outside the targeted field: mask 0x2000 for the bus voltage
range, 0x1800 for the gain, 0x0780 for the ADC setters with `busSetting = true`,
0x0078 for the ADC setters with `busSetting = false`, 0x0007 for the operating mode. -/
theorem setters_change_only_their_field (self : INA219) (w : TwoWire) :
    (∀ range, updatesOnly 0x2000 (self.getRegisterValue .configuration w).1 w
        (self.setBusVoltageRange range w)) ∧
    (∀ gain, updatesOnly 0x1800 (self.getRegisterValue .configuration w).1 w
        (self.setPgaGain gain w)) ∧
    (∀ resolution, updatesOnly 0x0780 (self.getRegisterValue .configuration w).1 w
        (self.setAdcResolution resolution true w)) ∧
    (∀ resolution, updatesOnly 0x0078 (self.getRegisterValue .configuration w).1 w
        (self.setAdcResolution resolution false w)) ∧
    (∀ samplesNumber, updatesOnly 0x0780 (self.getRegisterValue .configuration w).1 w
        (self.setNumberOfAveragedSamples samplesNumber true w)) ∧
    (∀ samplesNumber, updatesOnly 0x0078 (self.getRegisterValue .configuration w).1 w
        (self.setNumberOfAveragedSamples samplesNumber false w)) ∧
    (∀ mode, updatesOnly 0x0007 (self.getRegisterValue .configuration w).1 w
        (self.setOperatingMode mode w)) :=
  ⟨updatesOnly_setBusVoltageRange self w, updatesOnly_setPgaGain self w,
    fun r => updatesOnly_setAdcResolution self w r true,
    fun r => updatesOnly_setAdcResolution self w r false,
    fun s => updatesOnly_setNumberOfAveragedSamples self w s true,
    fun s => updatesOnly_setNumberOfAveragedSamples self w s false,
    updatesOnly_setOperatingMode self w⟩

theorem rmw_field (self : INA219) (w : TwoWire) (m v s k : Nat) (hv : v < 2 ^ k)
    (hs : v <<< s < 65536) (hm : (m >>> s) &&& (2 ^ k - 1) = 0) :
    registerWritesSince w (self.setRegisterValue .configuration
        ((((self.getRegisterValue .configuration w).1 &&& m) ||| (v <<< s)) % 65536)
        (self.getRegisterValue .configuration w).2) =
      [(0, ((self.getRegisterValue .configuration w).1 &&& m) ||| (v <<< s))] ∧
    field (((self.getRegisterValue .configuration w).1 &&& m) ||| (v <<< s)) s k = v := by
  refine ⟨?_, mask_field _ _ _ _ _ hv hm⟩
  rw [rmw_writes, Nat.mod_mod, field_word _ _ _ (config_read_lt self w) hs]

theorem field_testBit (x s k i : Nat) :
    (field x s k).testBit i = (x.testBit (s + i) && decide (i < k)) := by
  unfold field
  rw [Nat.testBit_and, Nat.testBit_shiftRight, Nat.testBit_two_pow_sub_one]

/-- C3. With `c` the word read from the configuration register,
`setAdcResolution r true` writes the code of `r` (b9 .. b12 = 0 .. 3) into the Bus
ADC field, bits 10-7, and `setAdcResolution r false` writes it into the Shunt ADC
field, bits 6-3; in both cases the top bit of the selected field (bit 10, resp.
bit 6) of the word written is 0, whatever the field held before. -/
theorem resolution_field_written (self : INA219) (w : TwoWire) (r : adcResolution) :
    (registerWritesSince w (self.setAdcResolution r true w) =
        [(0, ((self.getRegisterValue .configuration w).1 &&& (0xFFFF ^^^ 0x0780)) |||
              (r.getEnumValue <<< 7))] ∧
      field (((self.getRegisterValue .configuration w).1 &&& (0xFFFF ^^^ 0x0780)) |||
              (r.getEnumValue <<< 7)) 7 4 = r.getEnumValue ∧
      (((self.getRegisterValue .configuration w).1 &&& (0xFFFF ^^^ 0x0780)) |||
              (r.getEnumValue <<< 7)).testBit 10 = false) ∧
    (registerWritesSince w (self.setAdcResolution r false w) =
        [(0, ((self.getRegisterValue .configuration w).1 &&& (0xFFFF ^^^ 0x0078)) |||
              (r.getEnumValue <<< 3))] ∧
      field (((self.getRegisterValue .configuration w).1 &&& (0xFFFF ^^^ 0x0078)) |||
              (r.getEnumValue <<< 3)) 3 4 = r.getEnumValue ∧
      (((self.getRegisterValue .configuration w).1 &&& (0xFFFF ^^^ 0x0078)) |||
              (r.getEnumValue <<< 3)).testBit 6 = false) ∧
    [adcResolution.b9, .b10, .b11, .b12].map adcResolution.getEnumValue = [0, 1, 2, 3] := by
  have hbit : r.getEnumValue.testBit 3 = false :=
    Nat.testBit_lt_two_pow (by cases r <;> decide)
  refine ⟨?_, ?_, rfl⟩
  · have h := rmw_field self w 0xF87F r.getEnumValue 7 4 (by cases r <;> decide)
      (by cases r <;> decide) (by decide)
    rw [setAdcResolution_eq]
    refine ⟨h.1, h.2, ?_⟩
    have h3 := field_testBit (((self.getRegisterValue .configuration w).1 &&& 0xF87F) |||
      (r.getEnumValue <<< 7)) 7 4 3
    rw [h.2, hbit] at h3
    simpa using h3.symm
  · have h := rmw_field self w 0xFF87 r.getEnumValue 3 4 (by cases r <;> decide)
      (by cases r <;> decide) (by decide)
    rw [setAdcResolution_eq]
    refine ⟨h.1, h.2, ?_⟩
    have h3 := field_testBit (((self.getRegisterValue .configuration w).1 &&& 0xFF87) |||
      (r.getEnumValue <<< 3)) 3 4 3
    rw [h.2, hbit] at h3
    simpa using h3.symm

theorem word_bytes (v : Nat) (hv : v < 65536) :
    (v &&& 0xFF00) >>> 8 = v / 256 ∧ v &&& 0x00FF = v % 256 := by
  have h1 := byte_high v
  have h2 := byte_low v
  have h3 : v &&& 0x00FF ≤ 0x00FF := Nat.and_le_right
  have h4 : v &&& 0xFF00 ≤ 0xFF00 := Nat.and_le_right
  rw [Nat.shiftRight_eq_div_pow] at h1 ⊢
  omega

/-- C9. `setRegisterValue reg v` (with `v` a 16-bit word) puts exactly one transaction
on the bus: a write to the device address, closed by a stop condition, of the three
bytes register index, high byte `v >> 8`, low byte `v AND 0xFF`, in this order; the
register indices are configuration = 0, shuntVoltage = 1, busVoltage = 2, power = 3,
current = 4, calibration = 5, and `256 * high + low = v`. -/
theorem setRegisterValue_sends_three_bytes (self : INA219) (reg : registers) (v : Nat)
    (w : TwoWire) (hv : v < 65536) :
    (self.setRegisterValue reg v w).log =
      w.log ++ [BusEvent.write self.m_i2cAddress
        [reg.getEnumValue, (v &&& 0xFF00) >>> 8, v &&& 0x00FF] true] ∧
    256 * ((v &&& 0xFF00) >>> 8) + (v &&& 0x00FF) = v ∧
    [registers.configuration, .shuntVoltage, .busVoltage, .power, .current,
      .calibration].map registers.getEnumValue = [0, 1, 2, 3, 4, 5] := by
  obtain ⟨h1, h2⟩ := word_bytes v hv
  rw [setRegisterValue_eq, h1, h2]
  refine ⟨?_, by omega, rfl⟩
  have h3 : v / 256 % 256 = v / 256 := by omega
  simp [h3]

theorem setRegisterValue_sends_three_bytes_witness :
    ((⟨0x40, 100, Double.nan⟩ : INA219).setRegisterValue .calibration 0x1062
        (TwoWire.fresh 0x399F)).log =
      (TwoWire.fresh 0x399F).log ++ [BusEvent.write 0x40
        [registers.calibration.getEnumValue, (0x1062 &&& 0xFF00) >>> 8, 0x1062 &&& 0x00FF] true] ∧
    256 * ((0x1062 &&& 0xFF00) >>> 8) + (0x1062 &&& 0x00FF) = 0x1062 ∧
    [registers.configuration, .shuntVoltage, .busVoltage, .power, .current,
      .calibration].map registers.getEnumValue = [0, 1, 2, 3, 4, 5] :=
  setRegisterValue_sends_three_bytes ⟨0x40, 100, Double.nan⟩ .calibration 0x1062
    (TwoWire.fresh 0x399F) (by decide)

/-- C10. When the read transaction of `getRegisterValue` returns the bytes `b0`, `b1`
in this order, the result is `256 * b0 + b1`; and reading a register right after
writing the 16-bit word `v` to it with `setRegisterValue` returns `v`. -/
theorem getRegisterValue_big_endian (self : INA219) (reg : registers) (w : TwoWire) :
    (∀ b0 b1, BusEvent.read self.m_i2cAddress 2 [b0, b1] ∈
        (self.getRegisterValue reg w).2.log.drop w.log.length →
      (self.getRegisterValue reg w).1 = 256 * b0 + b1) ∧
    (∀ v, v < 65536 →
      (self.getRegisterValue reg (self.setRegisterValue reg v w)).1 = v) := by
  constructor
  · intro b0 b1 h
    rw [getRegisterValue_snd] at h
    simp only [List.drop_left, List.mem_cons, BusEvent.read.injEq, List.cons.injEq,
      and_true, true_and, List.mem_singleton, List.not_mem_nil, or_false, reduceCtorEq,
      false_or] at h
    rw [getRegisterValue_fst, h.1, h.2]
    omega
  · intro v hv
    rw [getRegisterValue_fst, setRegisterValue_eq]
    simp only [if_true]
    omega

theorem getRegisterValue_big_endian_witness :
    (BusEvent.read 0x40 2 [0x39, 0x9F] ∈
        ((⟨0x40, 100, Double.nan⟩ : INA219).getRegisterValue .configuration
          (TwoWire.fresh 0x399F)).2.log.drop (TwoWire.fresh 0x399F).log.length) ∧
    ((⟨0x40, 100, Double.nan⟩ : INA219).getRegisterValue .configuration
          (TwoWire.fresh 0x399F)).1 = 256 * 0x39 + 0x9F ∧
    ((⟨0x40, 100, Double.nan⟩ : INA219).getRegisterValue .calibration
        ((⟨0x40, 100, Double.nan⟩ : INA219).setRegisterValue .calibration 0x1062
          (TwoWire.fresh 0x399F))).1 = 0x1062 :=
  have hread : BusEvent.read 0x40 2 [0x39, 0x9F] ∈
        ((⟨0x40, 100, Double.nan⟩ : INA219).getRegisterValue .configuration
          (TwoWire.fresh 0x399F)).2.log.drop (TwoWire.fresh 0x399F).log.length := by decide
  ⟨hread,
    (getRegisterValue_big_endian ⟨0x40, 100, Double.nan⟩ .configuration
      (TwoWire.fresh 0x399F)).1 0x39 0x9F hread,
    (getRegisterValue_big_endian ⟨0x40, 100, Double.nan⟩ .calibration
      (TwoWire.fresh 0x399F)).2 0x1062 (by decide)⟩

end INA219

theorem and_submask (x y m1 m : Nat) (h : x &&& m1 = y &&& m1) (hm : m &&& m1 = m) :
    x &&& m = y &&& m := by
  rw [← hm, ← Nat.and_assoc, Nat.and_comm x, Nat.and_assoc, h, ← Nat.and_assoc, Nat.and_comm m y,
    Nat.and_assoc]

namespace INA219

theorem toUInt16_lt (x : Double) : x.toUInt16 < 65536 := by
  unfold Double.toUInt16
  omega

theorem calculateCalibrationValue_lt (self : INA219) (I : Nat) :
    (self.calculateCalibrationValue I).1 < 65536 := toUInt16_lt _

theorem new_fst (uninit : Double) (addr I R : Nat) (range : busVoltageRange) (gain : pgaGain)
    (mode : operatingMode) (w : TwoWire) :
    (INA219.new uninit addr I R range gain mode w).1 =
      { m_i2cAddress := addr % 256, m_rShuntValue := R % 65536,
        m_currentLsb := ((Double.ofNat (I % 65536)).div (Double.lit 1000 1)).div
          (Double.ofNat 32768) } := rfl

theorem new_snd (uninit : Double) (addr I R : Nat) (range : busVoltageRange) (gain : pgaGain)
    (mode : operatingMode) (w : TwoWire) :
    (INA219.new uninit addr I R range gain mode w).2 =
      (INA219.new uninit addr I R range gain mode w).1.setRegisterValue .calibration
        (Double.toUInt16 (calibrationQuotient (I % 65536) (R % 65536)))
        ((⟨addr % 256, R % 65536, uninit⟩ : INA219).setOperatingMode mode
          ((⟨addr % 256, R % 65536, uninit⟩ : INA219).setPgaGain gain
            ((⟨addr % 256, R % 65536, uninit⟩ : INA219).setBusVoltageRange range w))) := rfl

end INA219

/-- Register writes add up along a log that only grows. -/
theorem registerWritesSince_trans (w w1 w2 : TwoWire) (l1 l2 : List BusEvent)
    (h1 : w1.log = w.log ++ l1) (h2 : w2.log = w1.log ++ l2) :
    registerWritesSince w w2 = registerWritesSince w w1 ++ registerWritesSince w1 w2 ∧
    w2.log = w.log ++ (l1 ++ l2) := by
  unfold registerWritesSince registerWrites
  rw [h2, List.drop_left, h1, List.drop_left, List.append_assoc, List.drop_left,
    List.filterMap_append]
  exact ⟨rfl, rfl⟩

namespace INA219

/-- The effect of one read-modify-write of the configuration register that clears the
bits outside `m` and sets `v`. -/
theorem rmw_effect (self : INA219) (w : TwoWire) (m v : Nat) (hv : v < 65536)
    (hc : w.dev.regs 0 < 65536) :
    registerWritesSince w (self.setRegisterValue .configuration
        ((((self.getRegisterValue .configuration w).1 &&& m) ||| v) % 65536)
        (self.getRegisterValue .configuration w).2) = [(0, (w.dev.regs 0 &&& m) ||| v)] ∧
    (self.setRegisterValue .configuration
        ((((self.getRegisterValue .configuration w).1 &&& m) ||| v) % 65536)
        (self.getRegisterValue .configuration w).2).dev.regs 0 = (w.dev.regs 0 &&& m) ||| v ∧
    (w.dev.regs 0 &&& m) ||| v < 65536 ∧
    ∃ l, (self.setRegisterValue .configuration
        ((((self.getRegisterValue .configuration w).1 &&& m) ||| v) % 65536)
        (self.getRegisterValue .configuration w).2).log = w.log ++ l := by
  have hread : (self.getRegisterValue .configuration w).1 = w.dev.regs 0 := by
    rw [getRegisterValue_fst]
    exact Nat.mod_eq_of_lt hc
  have hval := rmw_value self w m v hv
  have hlt : (w.dev.regs 0 &&& m) ||| v < 65536 :=
    Nat.or_lt_two_pow (n := 16) (lt_of_le_of_lt Nat.and_le_left hc) hv
  refine ⟨?_, ?_, hlt, _, rmw_log self _ w⟩
  · rw [rmw_writes, Nat.mod_mod, hread, Nat.mod_eq_of_lt hlt]
  · rw [hval, hread]

theorem setRegisterValue_log (self : INA219) (reg : registers) (v : Nat) (w : TwoWire) :
    (self.setRegisterValue reg v w).log = w.log ++ [BusEvent.write self.m_i2cAddress
          [reg.getEnumValue, v / 256 % 256, v % 256] true] := by
  rw [setRegisterValue_eq]

theorem setRegisterValue_regs (self : INA219) (reg : registers) (v : Nat) (w : TwoWire)
    (r : Nat) :
    (self.setRegisterValue reg v w).dev.regs r =
      if r = reg.getEnumValue then v % 65536 else w.dev.regs r := by
  rw [setRegisterValue_eq]
  simp only
  split
  · omega
  · rfl

theorem registerWrites_single (a p v : Nat) (hv : v < 65536) :
    registerWrites [BusEvent.write a [p, v / 256 % 256, v % 256] true] = [(p, v)] := by
  simp only [registerWrites, List.filterMap, registerWrite?, List.cons.injEq, Prod.mk.injEq,
    true_and, and_true]
  omega

theorem new_effect (uninit : Double) (addr I R : Nat) (range : busVoltageRange) (gain : pgaGain)
    (mode : operatingMode) (w : TwoWire) (hc : w.dev.regs 0 < 65536) :
    registerWritesSince w (INA219.new uninit addr I R range gain mode w).2 =
      [(0, (w.dev.regs 0 &&& 0xDFFF) ||| (range.getEnumValue <<< 13)),
       (0, ((((w.dev.regs 0 &&& 0xDFFF) ||| (range.getEnumValue <<< 13)) &&& 0xE7FF) |||
              (gain.getEnumValue <<< 11))),
       (0, ((((((w.dev.regs 0 &&& 0xDFFF) ||| (range.getEnumValue <<< 13)) &&& 0xE7FF) |||
              (gain.getEnumValue <<< 11)) &&& 0xFFF8) ||| (mode.getEnumValue <<< 0))),
       (5, Double.toUInt16 (calibrationQuotient (I % 65536) (R % 65536)))] ∧
    (INA219.new uninit addr I R range gain mode w).2.dev.regs 0 =
      ((((((w.dev.regs 0 &&& 0xDFFF) ||| (range.getEnumValue <<< 13)) &&& 0xE7FF) |||
              (gain.getEnumValue <<< 11)) &&& 0xFFF8) ||| (mode.getEnumValue <<< 0)) ∧
    (INA219.new uninit addr I R range gain mode w).2.dev.regs 5 =
      Double.toUInt16 (calibrationQuotient (I % 65536) (R % 65536)) := by
  rw [new_snd]
  generalize (INA219.new uninit addr I R range gain mode w).1 = self'
  generalize (⟨addr % 256, R % 65536, uninit⟩ : INA219) = self
  obtain ⟨a1, a2, a3, l1, a4⟩ := rmw_effect self w 0xDFFF (range.getEnumValue <<< 13)
    (by cases range <;> decide) hc
  rw [← setBusVoltageRange_eq] at a1 a2 a4
  rw [← a2] at a3
  obtain ⟨b1, b2, b3, l2, b4⟩ := rmw_effect self (self.setBusVoltageRange range w) 0xE7FF
    (gain.getEnumValue <<< 11) (by cases gain <;> decide) a3
  rw [← setPgaGain_eq] at b1 b2 b4
  rw [← b2] at b3
  obtain ⟨c1, c2, c3, l3, c4⟩ := rmw_effect self
    (self.setPgaGain gain (self.setBusVoltageRange range w)) 0xFFF8
    (mode.getEnumValue <<< 0) (by cases mode <;> decide) b3
  rw [← setOperatingMode_eq] at c1 c2 c4
  have hcal := toUInt16_lt (calibrationQuotient (I % 65536) (R % 65536))
  generalize Double.toUInt16 (calibrationQuotient (I % 65536) (R % 65536)) = cal at hcal ⊢
  generalize hw1 : self.setBusVoltageRange range w = w1 at *
  generalize hw2 : self.setPgaGain gain w1 = w2 at *
  generalize hw3 : self.setOperatingMode mode w2 = w3 at *
  obtain ⟨t1, t1'⟩ := registerWritesSince_trans w w1 w2 l1 l2 a4 b4
  obtain ⟨t2, t2'⟩ := registerWritesSince_trans w w2 w3 _ l3 t1' c4
  obtain ⟨t3, _⟩ := registerWritesSince_trans w w3 _ _ _ t2'
    (setRegisterValue_log self' .calibration cal w3)
  have t4 : registerWritesSince w3 (self'.setRegisterValue .calibration cal w3) = [(5, cal)] := by
    unfold registerWritesSince
    rw [setRegisterValue_log, List.drop_left]
    exact registerWrites_single _ _ _ hcal
  refine ⟨?_, ?_, ?_⟩
  · rw [t3, t2, t1, a1, b1, c1, t4, b2, a2]
    rfl
  · rw [setRegisterValue_regs, if_neg (by decide), c2, b2, a2]
  · rw [setRegisterValue_regs]
    simp only [registers.getEnumValue, if_true]
    exact Nat.mod_eq_of_lt hcal

theorem calculateCalibrationValue_eq (self : INA219) (I : Nat) :
    self.calculateCalibrationValue I =
      (Double.toUInt16 (calibrationQuotient I self.m_rShuntValue),
        { self with m_currentLsb :=
            ((Double.ofNat I).div (Double.lit 1000 1)).div (Double.ofNat 32768) }) := rfl

theorem calculateCalibrationValue_mk (addr R I : Nat) (lsb0 : Double) :
    (⟨addr, R, lsb0⟩ : INA219).calculateCalibrationValue I =
      (Double.toUInt16 (calibrationQuotient I R),
        ⟨addr, R, ((Double.ofNat I).div (Double.lit 1000 1)).div (Double.ofNat 32768)⟩) := rfl

theorem exact_quotient (I R : Nat) (hI : 0 < I) (hR : 0 < R) :
    ⌊(0.04096 : ℚ) / (((I : ℚ) / 1000 / 32768) * ((R : ℚ) / 1000))⌋ =
      ((1342177280 / (I * R) : Nat) : Int) := by
  have hIq : (I : ℚ) ≠ 0 := by exact_mod_cast hI.ne'
  have hRq : (R : ℚ) ≠ 0 := by exact_mod_cast hR.ne'
  have h : (0.04096 : ℚ) / (((I : ℚ) / 1000 / 32768) * ((R : ℚ) / 1000)) =
      ((1342177280 : Nat) : ℚ) / ((I * R : Nat) : ℚ) := by
    push_cast
    field_simp
    norm_num
  rw [h, Rat.floor_natCast_div_natCast]
  norm_cast

/-- C5 (as amended). For `maxExpectedCurrentMilliamps = 3200` and
`shuntResistanceMilliohms = 100`, `calculateCalibrationValue` stores as currentLsb the
double `(3200 / 1000.0) / 32768`, which is `7205759403792794 * 2 ^ (-66)` (about
0.0000976563 A/bit, within one rounding of 3.2 / 32768), and returns the calibration
register value 4194. -/
theorem calibration_3200_100 (addr : Nat) (lsb0 : Double) :
    ((⟨addr, 100, lsb0⟩ : INA219).calculateCalibrationValue 3200).1 = 4194 ∧
    ((⟨addr, 100, lsb0⟩ : INA219).calculateCalibrationValue 3200).2 =
      ⟨addr, 100, Double.finite false 7205759403792794 (-66)⟩ ∧
    |(Double.finite false 7205759403792794 (-66)).toRat - (3200 : ℚ) / 1000 / 32768| ≤
      (3200 : ℚ) / 1000 / 32768 / 2 ^ 53 := by
  refine ⟨?_, ?_, ?_⟩
  · rw [calculateCalibrationValue_mk, toUInt16_quotient_3200_100]
  · rw [calculateCalibrationValue_mk, currentLsb_3200]
  · rw [Double.toRat_finite, abs_le]
    constructor <;> norm_num

/-- C5 (as stated) fails: for 3200 mA and 100 mOhm the value returned is not 4096. -/
theorem calibration_3200_100_is_not_4096 :
    ((⟨0x40, 100, Double.nan⟩ : INA219).calculateCalibrationValue 3200).1 ≠ 4096 := by
  rw [calculateCalibrationValue_mk, toUInt16_quotient_3200_100]
  decide

/-- C6. For a max expected current `I` (mA) and a shunt resistance `R` (mOhm), both
16-bit and positive, `calculateCalibrationValue I` stores as currentLsb the double
`(I / 1000.0) / 32768`, which is within one rounding of the rational
`(I / 1000) / 32768`, leaves the other members alone, and returns
`floor (0.04096 / (currentLsb * (R / 1000)))` of exact rational arithmetic truncated
to 16 bits; that floor is `floor (1342177280 / (I * R))`. -/
theorem calculateCalibrationValue_formula (self : INA219) (I : Nat) (hI : 0 < I)
    (hI2 : I < 65536) (hR : 0 < self.m_rShuntValue) (hR2 : self.m_rShuntValue < 65536) :
    (self.calculateCalibrationValue I).2 =
      { self with m_currentLsb :=
          ((Double.ofNat I).div (Double.lit 1000 1)).div (Double.ofNat 32768) } ∧
    Double.Near 1 (self.calculateCalibrationValue I).2.m_currentLsb ((I : ℚ) / 1000 / 32768) ∧
    (self.calculateCalibrationValue I).1 =
      (⌊(0.04096 : ℚ) / (((I : ℚ) / 1000 / 32768) * ((self.m_rShuntValue : ℚ) / 1000))⌋
        % 65536).toNat ∧
    ⌊(0.04096 : ℚ) / (((I : ℚ) / 1000 / 32768) * ((self.m_rShuntValue : ℚ) / 1000))⌋ =
      ((1342177280 / (I * self.m_rShuntValue) : Nat) : Int) ∧
    (self.calculateCalibrationValue I).1 = 1342177280 / (I * self.m_rShuntValue) % 65536 := by
  have hex := exact_quotient I self.m_rShuntValue hI hR
  have htr := calibrationQuotient_trunc I self.m_rShuntValue hI hI2 hR hR2
  have hret : (self.calculateCalibrationValue I).1 =
      1342177280 / (I * self.m_rShuntValue) % 65536 := by
    rw [calculateCalibrationValue_eq]
    show Double.toUInt16 (calibrationQuotient I self.m_rShuntValue) = _
    unfold Double.toUInt16
    rw [htr]
    omega
  refine ⟨rfl, currentLsb_near I hI hI2, ?_, hex, hret⟩
  rw [hret, hex]
  omega

theorem calculateCalibrationValue_formula_witness :
    ((⟨0x40, 100, Double.nan⟩ : INA219).calculateCalibrationValue 3200).1 =
      1342177280 / (3200 * 100) % 65536 :=
  (calculateCalibrationValue_formula ⟨0x40, 100, Double.nan⟩ 3200 (by decide) (by decide)
    (by decide) (by decide)).2.2.2.2

theorem calculateCalibrationValue_of_lsb (self : INA219) (I : Nat) :
    (self.calculateCalibrationValue I).1 =
      Double.toUInt16 ((Double.lit 4096 100000).div
        ((self.calculateCalibrationValue I).2.m_currentLsb.mul
          ((Double.ofNat self.m_rShuntValue).div (Double.lit 1000 1)))) := rfl

theorem new_regs_calibration (uninit : Double) (addr I R : Nat) (range : busVoltageRange)
    (gain : pgaGain) (mode : operatingMode) (w : TwoWire) :
    (INA219.new uninit addr I R range gain mode w).2.dev.regs 5 =
      Double.toUInt16 (calibrationQuotient (I % 65536) (R % 65536)) := by
  rw [new_snd, setRegisterValue_regs]
  simp only [registers.getEnumValue, if_true]
  exact Nat.mod_eq_of_lt (toUInt16_lt _)

theorem getRegisterValue_regs (self : INA219) (reg : registers) (w : TwoWire) :
    (self.getRegisterValue reg w).2.dev.regs = w.dev.regs := by
  rw [getRegisterValue_snd]

theorem rmw_regs_calibration (self : INA219) (v : Nat) (w : TwoWire) :
    (self.setRegisterValue .configuration v (self.getRegisterValue .configuration w).2).dev.regs 5
      = w.dev.regs 5 := by
  rw [rmw_regs, if_neg (by decide)]

end INA219

theorem run_setterOrGetter (c : Call) (s : System) (hc : c.isSetterOrGetter = true) :
    (c.run s).drv = s.drv ∧ (c.run s).bus.dev.regs 5 = s.bus.dev.regs 5 := by
  cases c with
  | setRegisterValue reg v => simp [Call.isSetterOrGetter] at hc
  | getRegisterValue reg => simp [Call.isSetterOrGetter] at hc
  | calculateCalibrationValue i => simp [Call.isSetterOrGetter] at hc
  | resetDevice => simp [Call.isSetterOrGetter] at hc
  | setBusVoltageRange range =>
    exact ⟨rfl, by
      show (s.drv.setBusVoltageRange range s.bus).dev.regs 5 = _
      rw [INA219.setBusVoltageRange_eq, INA219.rmw_regs_calibration]⟩
  | setPgaGain gain =>
    exact ⟨rfl, by
      show (s.drv.setPgaGain gain s.bus).dev.regs 5 = _
      rw [INA219.setPgaGain_eq, INA219.rmw_regs_calibration]⟩
  | setAdcResolution r b =>
    exact ⟨rfl, by
      show (s.drv.setAdcResolution r b s.bus).dev.regs 5 = _
      rw [INA219.setAdcResolution_eq, INA219.rmw_regs_calibration]⟩
  | setNumberOfAveragedSamples n b =>
    exact ⟨rfl, by
      show (s.drv.setNumberOfAveragedSamples n b s.bus).dev.regs 5 = _
      rw [INA219.setNumberOfAveragedSamples_eq, INA219.rmw_regs_calibration]⟩
  | setOperatingMode mode =>
    exact ⟨rfl, by
      show (s.drv.setOperatingMode mode s.bus).dev.regs 5 = _
      rw [INA219.setOperatingMode_eq, INA219.rmw_regs_calibration]⟩
  | getShuntVoltageValue =>
    exact ⟨rfl, congrFun (INA219.getRegisterValue_regs s.drv .shuntVoltage s.bus) 5⟩
  | getBusVoltageValue =>
    exact ⟨rfl, congrFun (INA219.getRegisterValue_regs s.drv .busVoltage s.bus) 5⟩
  | getConversionReadyState =>
    exact ⟨rfl, congrFun (INA219.getRegisterValue_regs s.drv .busVoltage s.bus) 5⟩
  | getMathOverflowFlag =>
    exact ⟨rfl, congrFun (INA219.getRegisterValue_regs s.drv .busVoltage s.bus) 5⟩
  | getPowerValue =>
    exact ⟨rfl, congrFun (INA219.getRegisterValue_regs s.drv .power s.bus) 5⟩
  | getCurrentValue =>
    exact ⟨rfl, congrFun (INA219.getRegisterValue_regs s.drv .current s.bus) 5⟩

theorem reachable_setterOrGetter (s0 s : System)
    (h : Reachable Call.isSetterOrGetter s0 s) :
    s.drv = s0.drv ∧ s.bus.dev.regs 5 = s0.bus.dev.regs 5 := by
  induction h with
  | start => exact ⟨rfl, rfl⟩
  | step c s _ hc ih =>
    obtain ⟨h1, h2⟩ := run_setterOrGetter c s hc
    exact ⟨h1.trans ih.1, h2.trans ih.2⟩

/-- C7 (as amended). In the state right after construction for a 16-bit max expected
current `I`, and in every state reached from it by configuration setters and
measurement getters, the stored currentLsb is the one `calculateCalibrationValue`
computes for `I` and the calibration register holds exactly the calibration value
`calculateCalibrationValue` derives for `I`. -/
theorem cache_consistent_after_construction (uninit : Double) (addr I R : Nat)
    (range : INA219.busVoltageRange) (gain : INA219.pgaGain) (mode : INA219.operatingMode)
    (w : TwoWire) (s : System) (hI : I < 65536)
    (h : Reachable Call.isSetterOrGetter
      (System.constructed uninit addr I R range gain mode w) s) :
    s.drv.m_currentLsb = (s.drv.calculateCalibrationValue I).2.m_currentLsb ∧
    s.bus.dev.regs 5 = (s.drv.calculateCalibrationValue I).1 ∧
    CacheConsistent s := by
  obtain ⟨h1, h2⟩ := reachable_setterOrGetter _ s h
  have hI' : I % 65536 = I := Nat.mod_eq_of_lt hI
  have hd : s.drv = (INA219.new uninit addr I R range gain mode w).1 := h1
  have hr : s.bus.dev.regs 5 = Double.toUInt16 (calibrationQuotient I (R % 65536)) := by
    rw [h2]
    show (INA219.new uninit addr I R range gain mode w).2.dev.regs 5 = _
    rw [INA219.new_regs_calibration, hI']
  have a1 : s.drv.m_currentLsb = (s.drv.calculateCalibrationValue I).2.m_currentLsb := by
    rw [hd, INA219.new_fst, hI']
    rfl
  have a2 : s.bus.dev.regs 5 = (s.drv.calculateCalibrationValue I).1 := by
    rw [hr, hd, INA219.new_fst]
    rfl
  exact ⟨a1, a2, I, hI, a1, a2⟩

theorem cache_consistent_after_construction_witness :
    CacheConsistent (Call.run (.setOperatingMode .powerDown)
      (System.constructed Double.nan 0x40 3200 100 .V16 .g4 .shuntAndBusVoltage_continuous
        (TwoWire.fresh 0x399F))) :=
  (cache_consistent_after_construction Double.nan 0x40 3200 100 .V16 .g4
    .shuntAndBusVoltage_continuous (TwoWire.fresh 0x399F) _ (by decide)
    (Reachable.step (Call.setOperatingMode .powerDown) _ Reachable.start rfl)).2.2

/-- C7 (as stated) fails: after construction for 3200 mA over 100 mOhm, the public
`calculateCalibrationValue 1000` replaces the stored currentLsb while the calibration
register keeps 4194, the value for 3200 mA; the value for the new currentLsb is 13421. -/
theorem cache_diverges_after_public_calculate :
    Reachable Call.any
      (System.constructed Double.nan 0x40 3200 100 .V16 .g4 .shuntAndBusVoltage_continuous
        (TwoWire.fresh 0x399F))
      (Call.run (.calculateCalibrationValue 1000)
        (System.constructed Double.nan 0x40 3200 100 .V16 .g4 .shuntAndBusVoltage_continuous
          (TwoWire.fresh 0x399F))) ∧
    ¬ CacheConsistent (Call.run (.calculateCalibrationValue 1000)
        (System.constructed Double.nan 0x40 3200 100 .V16 .g4 .shuntAndBusVoltage_continuous
          (TwoWire.fresh 0x399F))) := by
  refine ⟨Reachable.step (Call.calculateCalibrationValue 1000) _ Reachable.start rfl, ?_⟩
  rintro ⟨i, _, h1, h2⟩
  rw [INA219.calculateCalibrationValue_of_lsb, ← h1] at h2
  have h3 : (Call.run (.calculateCalibrationValue 1000)
        (System.constructed Double.nan 0x40 3200 100 .V16 .g4 .shuntAndBusVoltage_continuous
          (TwoWire.fresh 0x399F))).bus.dev.regs 5 = 4194 := by
    show (INA219.new Double.nan 0x40 3200 100 .V16 .g4 .shuntAndBusVoltage_continuous
          (TwoWire.fresh 0x399F)).2.dev.regs 5 = 4194
    rw [INA219.new_regs_calibration]
    exact toUInt16_quotient_3200_100
  rw [h3] at h2
  have h4 : Double.toUInt16 (calibrationQuotient 1000 100) = 4194 := h2.symm
  rw [toUInt16_quotient_1000_100] at h4
  exact absurd h4 (by decide)

namespace INA219

theorem new_keeps_other_bits (c0 r g m : Nat) (hr : (r <<< 13) &&& 0xDFFF = 0)
    (hg : (g <<< 11) &&& 0xE7FF = 0) (hm : (m <<< 0) &&& 0xFFF8 = 0) :
    ((((((c0 &&& 0xDFFF) ||| (r <<< 13)) &&& 0xE7FF) ||| (g <<< 11)) &&& 0xFFF8) ||| (m <<< 0))
      &&& 0xC7F8 = c0 &&& 0xC7F8 := by
  have h1 := and_submask _ _ _ 0xC7F8 (mask_frame c0 0xDFFF (r <<< 13) hr) (by decide)
  have h2 := and_submask _ _ _ 0xC7F8
    (mask_frame ((c0 &&& 0xDFFF) ||| (r <<< 13)) 0xE7FF (g <<< 11) hg) (by decide)
  have h3 := and_submask _ _ _ 0xC7F8
    (mask_frame ((((c0 &&& 0xDFFF) ||| (r <<< 13)) &&& 0xE7FF) ||| (g <<< 11)) 0xFFF8
      (m <<< 0) hm) (by decide)
  rw [h3, h2, h1]

/-- C8. Constructing a driver with `(address, I, R, range, gain, mode)` over a
register-file device whose configuration register holds the 16-bit word `c0` performs
exactly four register writes, in this order: configuration := c1 =
`(c0 AND 0xDFFF) OR (range << 13)`, configuration := c2 = `(c1 AND 0xE7FF) OR (gain << 11)`,
configuration := c3 = `(c2 AND 0xFFF8) OR mode`, calibration :=
`calculateCalibrationValue I`.  Afterwards the object holds the address, `R` and the
currentLsb `(I / 1000.0) / 32768` (for `I > 0` within one rounding of the rational
`(I / 1000) / 32768`), the registers hold c3 and the calibration value,
and bits 15, 14 and 10-3 of the configuration register are those of `c0`.  With the
defaults (V16, g4, shuntAndBusVoltage_continuous) and `c0 = 0x399F` the configuration
register ends as 0x119F. -/
theorem constructor_performs_four_writes (uninit : Double) (addr I R : Nat)
    (range : busVoltageRange) (gain : pgaGain) (mode : operatingMode) (w : TwoWire)
    (haddr : addr < 256) (hI : I < 65536) (hR : R < 65536) (hc : w.dev.regs 0 < 65536) :
    registerWritesSince w (INA219.new uninit addr I R range gain mode w).2 =
      [(0, (w.dev.regs 0 &&& 0xDFFF) ||| (range.getEnumValue <<< 13)),
       (0, (((w.dev.regs 0 &&& 0xDFFF) ||| (range.getEnumValue <<< 13)) &&& 0xE7FF) |||
              (gain.getEnumValue <<< 11)),
       (0, (((((w.dev.regs 0 &&& 0xDFFF) ||| (range.getEnumValue <<< 13)) &&& 0xE7FF) |||
              (gain.getEnumValue <<< 11)) &&& 0xFFF8) ||| mode.getEnumValue),
       (5, ((⟨addr, R, uninit⟩ : INA219).calculateCalibrationValue I).1)] ∧
    (INA219.new uninit addr I R range gain mode w).1 =
      ⟨addr, R, ((Double.ofNat I).div (Double.lit 1000 1)).div (Double.ofNat 32768)⟩ ∧
    (0 < I → Double.Near 1 (INA219.new uninit addr I R range gain mode w).1.m_currentLsb
      ((I : ℚ) / 1000 / 32768)) ∧
    (INA219.new uninit addr I R range gain mode w).2.dev.regs 0 =
      ((((((w.dev.regs 0 &&& 0xDFFF) ||| (range.getEnumValue <<< 13)) &&& 0xE7FF) |||
              (gain.getEnumValue <<< 11)) &&& 0xFFF8) ||| mode.getEnumValue) ∧
    (INA219.new uninit addr I R range gain mode w).2.dev.regs 5 =
      ((⟨addr, R, uninit⟩ : INA219).calculateCalibrationValue I).1 ∧
    (INA219.new uninit addr I R range gain mode w).2.dev.regs 0 &&& 0xC7F8 =
      w.dev.regs 0 &&& 0xC7F8 ∧
    (w.dev.regs 0 = 0x399F →
      (INA219.new uninit addr I R defaultBusVoltage defaultPgaGain defaultOperatingMode
        w).2.dev.regs 0 = 0x119F) := by
  have hI' : I % 65536 = I := Nat.mod_eq_of_lt hI
  have hR' : R % 65536 = R := Nat.mod_eq_of_lt hR
  have haddr' : addr % 256 = addr := Nat.mod_eq_of_lt haddr
  obtain ⟨e1, e2, e3⟩ := new_effect uninit addr I R range gain mode w hc
  rw [hI', hR'] at e1 e3
  have hnew : (INA219.new uninit addr I R range gain mode w).1 =
      ⟨addr, R, ((Double.ofNat I).div (Double.lit 1000 1)).div (Double.ofNat 32768)⟩ := by
    rw [new_fst, hI', hR', haddr']
  refine ⟨e1, hnew, ?_, e2, e3, ?_, ?_⟩
  · intro hpos
    rw [hnew]
    exact currentLsb_near I hpos hI
  · rw [e2]
    exact new_keeps_other_bits _ _ _ _ (by cases range <;> decide) (by cases gain <;> decide)
      (by cases mode <;> decide)
  · intro h0
    rw [(new_effect uninit addr I R defaultBusVoltage defaultPgaGain defaultOperatingMode w
      hc).2.1, h0]
    decide

theorem constructor_performs_four_writes_witness :
    registerWritesSince (TwoWire.fresh 0x399F)
        (INA219.new Double.nan 0x40 3200 100 .V16 .g4 .shuntAndBusVoltage_continuous
          (TwoWire.fresh 0x399F)).2 =
      [(0, ((TwoWire.fresh 0x399F).dev.regs 0 &&& 0xDFFF) |||
            (busVoltageRange.V16.getEnumValue <<< 13)),
       (0, ((((TwoWire.fresh 0x399F).dev.regs 0 &&& 0xDFFF) |||
            (busVoltageRange.V16.getEnumValue <<< 13)) &&& 0xE7FF) |||
              (pgaGain.g4.getEnumValue <<< 11)),
       (0, ((((((TwoWire.fresh 0x399F).dev.regs 0 &&& 0xDFFF) |||
            (busVoltageRange.V16.getEnumValue <<< 13)) &&& 0xE7FF) |||
              (pgaGain.g4.getEnumValue <<< 11)) &&& 0xFFF8) |||
              operatingMode.shuntAndBusVoltage_continuous.getEnumValue),
       (5, ((⟨0x40, 100, Double.nan⟩ : INA219).calculateCalibrationValue 3200).1)] :=
  (constructor_performs_four_writes Double.nan 0x40 3200 100 .V16 .g4
    .shuntAndBusVoltage_continuous (TwoWire.fresh 0x399F) (by decide) (by decide) (by decide)
    (by decide)).1

end INA219

/-! ## Status flags, reset, pure reads -/

namespace INA219

/-- C15. With `c` the word read from the configuration register, `resetDevice`
performs one register write, of `c OR 0x8000` to the configuration register: bit 15
of the word written is set and bits 14-0 are those of `c`. -/
theorem resetDevice_sets_bit_15 (self : INA219) (w : TwoWire) :
    registerWritesSince w (self.resetDevice w) =
      [(0, (self.getRegisterValue .configuration w).1 ||| 0x8000)] ∧
    (self.resetDevice w).dev.regs 0 = (self.getRegisterValue .configuration w).1 ||| 0x8000 ∧
    ((self.getRegisterValue .configuration w).1 ||| 0x8000).testBit 15 = true ∧
    ((self.getRegisterValue .configuration w).1 ||| 0x8000) &&& 0x7FFF =
      (self.getRegisterValue .configuration w).1 &&& 0x7FFF := by
  have hlt := config_read_lt self w
  have hor : ((self.getRegisterValue .configuration w).1 ||| 0x8000) % 65536 =
      (self.getRegisterValue .configuration w).1 ||| 0x8000 :=
    word_or_lt _ _ hlt (by norm_num)
  have hreset : self.resetDevice w = self.setRegisterValue .configuration
      (((self.getRegisterValue .configuration w).1 ||| 0x8000) % 65536)
      (self.getRegisterValue .configuration w).2 := rfl
  refine ⟨?_, ?_, ?_, ?_⟩
  · rw [hreset, rmw_writes, Nat.mod_mod, hor]
  · rw [hreset, rmw_regs, if_pos rfl, Nat.mod_mod, hor]
  · rw [Nat.testBit_or]
    have : Nat.testBit 0x8000 15 = true := by decide
    rw [this, Bool.or_true]
  · apply Nat.eq_of_testBit_eq
    intro i
    simp only [Nat.testBit_and, Nat.testBit_or]
    have h15 : (0x8000 : Nat) = 2 ^ 15 := by norm_num
    have h7 : (0x7FFF : Nat) = 2 ^ 15 - 1 := by norm_num
    rw [h15, h7, Nat.testBit_two_pow, Nat.testBit_two_pow_sub_one]
    by_cases hi : i < 15
    · have : ¬ (15 = i) := by omega
      simp [hi, this]
    · simp [hi]

theorem readsOnly_getRegisterValue (self : INA219) (reg : registers) (w : TwoWire) :
    readsOnly self reg.getEnumValue w (self.getRegisterValue reg w).2 := by
  unfold readsOnly registerWritesSince
  rw [getRegisterValue_snd]
  refine ⟨rfl, ?_, rfl⟩
  simp only [List.drop_left]
  rfl

theorem getRegisterValue_twice (self : INA219) (reg reg' : registers) (w : TwoWire) :
    (self.getRegisterValue reg (self.getRegisterValue reg' w).2).1 =
      (self.getRegisterValue reg w).1 := by
  rw [getRegisterValue_fst, getRegisterValue_fst, getRegisterValue_regs]

/-- C16. Every measurement getter is a pure read.  Its bus traffic is exactly one
register read (pointer write left open, then a two-byte read) and no register write,
and every register of the peripheral keeps its content; as a call it leaves the
driver object, with its currentLsb, as it was; its result depends only on the word
read (and, for power and current, on currentLsb); so a second call against the same
device state returns the same result. -/
theorem getters_are_pure_reads (self : INA219) (w : TwoWire) :
    (readsOnly self 1 w (self.getShuntVoltageValue w).2 ∧
      readsOnly self 2 w (self.getBusVoltageValue w).2 ∧
      readsOnly self 2 w (self.getConversionReadyState w).2 ∧
      readsOnly self 2 w (self.getMathOverflowFlag w).2 ∧
      readsOnly self 3 w (self.getPowerValue w).2 ∧
      readsOnly self 4 w (self.getCurrentValue w).2) ∧
    (∀ c : Call, c.isGetter = true →
      (c.run ⟨self, w⟩).drv = self ∧ (c.run ⟨self, w⟩).bus.dev.regs = w.dev.regs) ∧
    (∀ (self' : INA219) (w' : TwoWire),
      ((self'.getRegisterValue .shuntVoltage w').1 = (self.getRegisterValue .shuntVoltage w).1 →
        (self'.getShuntVoltageValue w').1 = (self.getShuntVoltageValue w).1) ∧
      ((self'.getRegisterValue .busVoltage w').1 = (self.getRegisterValue .busVoltage w).1 →
        (self'.getBusVoltageValue w').1 = (self.getBusVoltageValue w).1 ∧
        (self'.getConversionReadyState w').1 = (self.getConversionReadyState w).1 ∧
        (self'.getMathOverflowFlag w').1 = (self.getMathOverflowFlag w).1) ∧
      ((self'.getRegisterValue .power w').1 = (self.getRegisterValue .power w).1 →
        self'.m_currentLsb = self.m_currentLsb →
        (self'.getPowerValue w').1 = (self.getPowerValue w).1) ∧
      ((self'.getRegisterValue .current w').1 = (self.getRegisterValue .current w).1 →
        self'.m_currentLsb = self.m_currentLsb →
        (self'.getCurrentValue w').1 = (self.getCurrentValue w).1)) ∧
    ((self.getShuntVoltageValue (self.getShuntVoltageValue w).2).1 =
        (self.getShuntVoltageValue w).1 ∧
      (self.getBusVoltageValue (self.getBusVoltageValue w).2).1 =
        (self.getBusVoltageValue w).1 ∧
      (self.getConversionReadyState (self.getConversionReadyState w).2).1 =
        (self.getConversionReadyState w).1 ∧
      (self.getMathOverflowFlag (self.getMathOverflowFlag w).2).1 =
        (self.getMathOverflowFlag w).1 ∧
      (self.getPowerValue (self.getPowerValue w).2).1 = (self.getPowerValue w).1 ∧
      (self.getCurrentValue (self.getCurrentValue w).2).1 = (self.getCurrentValue w).1) := by
  refine ⟨⟨readsOnly_getRegisterValue self .shuntVoltage w,
      readsOnly_getRegisterValue self .busVoltage w,
      readsOnly_getRegisterValue self .busVoltage w,
      readsOnly_getRegisterValue self .busVoltage w,
      readsOnly_getRegisterValue self .power w,
      readsOnly_getRegisterValue self .current w⟩, ?_, ?_, ?_⟩
  · intro c hc
    cases c with
    | getShuntVoltageValue => exact ⟨rfl, getRegisterValue_regs self .shuntVoltage w⟩
    | getBusVoltageValue => exact ⟨rfl, getRegisterValue_regs self .busVoltage w⟩
    | getConversionReadyState => exact ⟨rfl, getRegisterValue_regs self .busVoltage w⟩
    | getMathOverflowFlag => exact ⟨rfl, getRegisterValue_regs self .busVoltage w⟩
    | getPowerValue => exact ⟨rfl, getRegisterValue_regs self .power w⟩
    | getCurrentValue => exact ⟨rfl, getRegisterValue_regs self .current w⟩
    | _ => simp [Call.isGetter] at hc
  · intro self' w'
    refine ⟨?_, ?_, ?_, ?_⟩
    · intro h
      simp only [getShuntVoltageValue, h]
    · intro h
      refine ⟨?_, ?_, ?_⟩
      · simp only [getBusVoltageValue, h]
      · simp only [getConversionReadyState, h]
      · simp only [getMathOverflowFlag, h]
    · intro h hl
      simp only [getPowerValue, h, hl]
    · intro h hl
      simp only [getCurrentValue, h, hl]
  · have e1 := getRegisterValue_twice self .shuntVoltage .shuntVoltage w
    have e2 := getRegisterValue_twice self .busVoltage .busVoltage w
    have e3 := getRegisterValue_twice self .power .power w
    have e4 := getRegisterValue_twice self .current .current w
    refine ⟨?_, ?_, ?_, ?_, ?_, ?_⟩
    · show (Double.ofInt (toInt16 (self.getRegisterValue .shuntVoltage
        (self.getRegisterValue .shuntVoltage w).2).1)).mul _ = _
      rw [e1]; rfl
    · show (Double.ofNat ((self.getRegisterValue .busVoltage
        (self.getRegisterValue .busVoltage w).2).1 >>> 3)).mul _ = _
      rw [e2]; rfl
    · show decide ((self.getRegisterValue .busVoltage
        (self.getRegisterValue .busVoltage w).2).1 &&& 0x0002 ≠ 0) = _
      rw [e2]; rfl
    · show decide ((self.getRegisterValue .busVoltage
        (self.getRegisterValue .busVoltage w).2).1 &&& 0x0001 ≠ 0) = _
      rw [e2]; rfl
    · show ((Double.ofNat (self.getRegisterValue .power
        (self.getRegisterValue .power w).2).1).mul _).mul _ = _
      rw [e3]; rfl
    · show (Double.ofInt (toInt16 (self.getRegisterValue .current
        (self.getRegisterValue .current w).2).1)).mul _ = _
      rw [e4]; rfl

theorem getters_are_pure_reads_witness :
    (Call.run Call.getPowerValue ⟨⟨0x40, 100, Double.nan⟩, TwoWire.fresh 0x399F⟩).drv =
        ⟨0x40, 100, Double.nan⟩ ∧
      (Call.run Call.getPowerValue ⟨⟨0x40, 100, Double.nan⟩, TwoWire.fresh 0x399F⟩).bus.dev.regs =
        (TwoWire.fresh 0x399F).dev.regs :=
  (getters_are_pure_reads ⟨0x40, 100, Double.nan⟩ (TwoWire.fresh 0x399F)).2.1
    Call.getPowerValue rfl

/-- C17. `calculateCalibrationValue` is a function of the max expected current and
the shunt resistance only: for two driver objects with the same shunt resistance,
whatever their addresses and previously stored currentLsb, a call with the same max
expected current returns the same value and stores the same currentLsb. -/
theorem calculateCalibrationValue_deterministic (self self' : INA219) (I : Nat)
    (h : self.m_rShuntValue = self'.m_rShuntValue) :
    (self.calculateCalibrationValue I).1 = (self'.calculateCalibrationValue I).1 ∧
    (self.calculateCalibrationValue I).2.m_currentLsb =
      (self'.calculateCalibrationValue I).2.m_currentLsb := by
  rw [calculateCalibrationValue_eq, calculateCalibrationValue_eq, h]
  exact ⟨rfl, rfl⟩

theorem calculateCalibrationValue_deterministic_witness :
    ((⟨0x40, 100, Double.nan⟩ : INA219).calculateCalibrationValue 3200).1 =
      ((⟨0x41, 100, Double.inf true⟩ : INA219).calculateCalibrationValue 3200).1 ∧
    ((⟨0x40, 100, Double.nan⟩ : INA219).calculateCalibrationValue 3200).2.m_currentLsb =
      ((⟨0x41, 100, Double.inf true⟩ : INA219).calculateCalibrationValue 3200).2.m_currentLsb :=
  calculateCalibrationValue_deterministic ⟨0x40, 100, Double.nan⟩ ⟨0x41, 100, Double.inf true⟩
    3200 rfl

end INA219

/-! ## Setters on different fields commute -/

theorem and_complement_of_disjoint (v f1 f2 : Nat) (hv : v &&& f1 = v) (hd : f1 &&& f2 = 0)
    (hv16 : v < 65536) : v &&& (0xFFFF ^^^ f2) = v := by
  apply Nat.eq_of_testBit_eq
  intro i
  have h1 : (v &&& f1).testBit i = v.testBit i := by rw [hv]
  have h2 : (f1 &&& f2).testBit i = false := by rw [hd]; simp
  have h16 : (0xFFFF : Nat) = 2 ^ 16 - 1 := by norm_num
  rw [Nat.testBit_and] at h1 h2
  rw [Nat.testBit_and, Nat.testBit_xor, h16, Nat.testBit_two_pow_sub_one]
  by_cases hi : i < 16
  · cases hvi : v.testBit i <;> cases hf1 : f1.testBit i <;> cases hf2 : f2.testBit i <;>
      simp_all
  · rw [testBit_false_of_lt_two_pow v 16 i hv16 (by omega)]
    simp

theorem and_complement_of_inside (v f : Nat) (hv : v &&& f = v) (hv16 : v < 65536) :
    v &&& (0xFFFF ^^^ f) = 0 := by
  apply Nat.eq_of_testBit_eq
  intro i
  have h1 : (v &&& f).testBit i = v.testBit i := by rw [hv]
  have h16 : (0xFFFF : Nat) = 2 ^ 16 - 1 := by norm_num
  rw [Nat.testBit_and] at h1
  rw [Nat.testBit_and, Nat.testBit_xor, Nat.zero_testBit, h16, Nat.testBit_two_pow_sub_one]
  by_cases hi : i < 16
  · cases hvi : v.testBit i <;> cases hf : f.testBit i <;> simp_all
  · rw [testBit_false_of_lt_two_pow v 16 i hv16 (by omega)]
    simp

theorem field_updates_commute (c m1 v1 m2 v2 : Nat) (h1 : v1 &&& m2 = v1)
    (h2 : v2 &&& m1 = v2) :
    ((((c &&& m1) ||| v1) &&& m2) ||| v2) = ((((c &&& m2) ||| v2) &&& m1) ||| v1) := by
  apply Nat.eq_of_testBit_eq
  intro i
  have a1 : (v1 &&& m2).testBit i = v1.testBit i := by rw [h1]
  have a2 : (v2 &&& m1).testBit i = v2.testBit i := by rw [h2]
  rw [Nat.testBit_and] at a1 a2
  simp only [Nat.testBit_and, Nat.testBit_or]
  cases hc : c.testBit i <;> cases hm1 : m1.testBit i <;> cases hm2 : m2.testBit i <;>
    cases hv1 : v1.testBit i <;> cases hv2 : v2.testBit i <;> simp_all

theorem field_update_last_wins (c m v1 v2 : Nat) (h1 : v1 &&& m = 0) :
    ((((c &&& m) ||| v1) &&& m) ||| v2) = ((c &&& m) ||| v2) := by
  apply Nat.eq_of_testBit_eq
  intro i
  have a1 : (v1 &&& m).testBit i = false := by rw [h1]; simp
  rw [Nat.testBit_and] at a1
  simp only [Nat.testBit_and, Nat.testBit_or]
  cases hc : c.testBit i <;> cases hm : m.testBit i <;>
    cases hv1 : v1.testBit i <;> cases hv2 : v2.testBit i <;> simp_all

namespace INA219

/-- What a setter call does to the configuration register: it keeps the bits outside
its field and puts a value `v` that lies inside the field. -/
theorem setter_regs (c : Call) (f : Nat) (h : c.targetField = some f) :
    ∃ v, v &&& f = v ∧ v < 65536 ∧ ∀ s : System,
      (c.run s).drv = s.drv ∧
      (c.run s).bus.dev.regs 0 = ((s.bus.dev.regs 0 % 65536) &&& (0xFFFF ^^^ f)) ||| v := by
  have key : ∀ (m v : Nat), v < 65536 → ∀ s : System,
      (s.drv.setRegisterValue .configuration
        ((((s.drv.getRegisterValue .configuration s.bus).1 &&& m) ||| v) % 65536)
        (s.drv.getRegisterValue .configuration s.bus).2).dev.regs 0 =
      ((s.bus.dev.regs 0 % 65536) &&& m) ||| v := by
    intro m v hv s
    rw [rmw_value s.drv s.bus m v hv, getRegisterValue_fst]
    rfl
  cases c with
  | setBusVoltageRange range =>
    simp only [Call.targetField, Option.some.injEq] at h
    subst h
    refine ⟨range.getEnumValue <<< 13, by cases range <;> decide, by cases range <;> decide,
      fun s => ⟨rfl, ?_⟩⟩
    show (s.drv.setBusVoltageRange range s.bus).dev.regs 0 = _
    rw [setBusVoltageRange_eq]
    exact key _ _ (by cases range <;> decide) s
  | setPgaGain gain =>
    simp only [Call.targetField, Option.some.injEq] at h
    subst h
    refine ⟨gain.getEnumValue <<< 11, by cases gain <;> decide, by cases gain <;> decide,
      fun s => ⟨rfl, ?_⟩⟩
    show (s.drv.setPgaGain gain s.bus).dev.regs 0 = _
    rw [setPgaGain_eq]
    exact key _ _ (by cases gain <;> decide) s
  | setAdcResolution r b =>
    simp only [Call.targetField, Option.some.injEq] at h
    subst h
    refine ⟨r.getEnumValue <<< (if b then 7 else 3), by cases r <;> cases b <;> decide,
      by cases r <;> cases b <;> decide, fun s => ⟨rfl, ?_⟩⟩
    show (s.drv.setAdcResolution r b s.bus).dev.regs 0 = _
    rw [setAdcResolution_eq]
    have hm : (if b then (0xF87F : Nat) else 0xFF87) =
        0xFFFF ^^^ (if b then 0x0780 else 0x0078) := by cases b <;> decide
    rw [hm]
    exact key _ _ (by cases r <;> cases b <;> decide) s
  | setNumberOfAveragedSamples n b =>
    simp only [Call.targetField, Option.some.injEq] at h
    subst h
    refine ⟨n.getEnumValue <<< (if b then 7 else 3), by cases n <;> cases b <;> decide,
      by cases n <;> cases b <;> decide, fun s => ⟨rfl, ?_⟩⟩
    show (s.drv.setNumberOfAveragedSamples n b s.bus).dev.regs 0 = _
    rw [setNumberOfAveragedSamples_eq]
    have hm : (if b then (0xF87F : Nat) else 0xFF87) =
        0xFFFF ^^^ (if b then 0x0780 else 0x0078) := by cases b <;> decide
    rw [hm]
    exact key _ _ (by cases n <;> cases b <;> decide) s
  | setOperatingMode mode =>
    simp only [Call.targetField, Option.some.injEq] at h
    subst h
    refine ⟨mode.getEnumValue <<< 0, by cases mode <;> decide, by cases mode <;> decide,
      fun s => ⟨rfl, ?_⟩⟩
    show (s.drv.setOperatingMode mode s.bus).dev.regs 0 = _
    rw [setOperatingMode_eq]
    exact key _ _ (by cases mode <;> decide) s
  | _ => simp [Call.targetField] at h

theorem field_word_lt (c m v : Nat) (hv : v < 65536) : ((c % 65536) &&& m) ||| v < 65536 :=
  Nat.or_lt_two_pow (n := 16)
    (lt_of_le_of_lt Nat.and_le_left (Nat.mod_lt _ (by norm_num))) hv

/-- C20. Over the register file, two configuration setter calls whose target fields
are disjoint leave the same configuration register value in either order; two setter
calls on the same field leave the value the second call alone leaves (last write
wins); in particular repeating a setter call changes nothing. -/
theorem setters_commute (s : System) (c1 c2 : Call) (f1 f2 : Nat)
    (h1 : c1.targetField = some f1) (h2 : c2.targetField = some f2) :
    (f1 &&& f2 = 0 →
      (c2.run (c1.run s)).bus.dev.regs 0 = (c1.run (c2.run s)).bus.dev.regs 0) ∧
    (f1 = f2 → (c2.run (c1.run s)).bus.dev.regs 0 = (c2.run s).bus.dev.regs 0) ∧
    (c1.run (c1.run s)).bus.dev.regs 0 = (c1.run s).bus.dev.regs 0 := by
  obtain ⟨v1, hv1, hv1', r1⟩ := setter_regs c1 f1 h1
  obtain ⟨v2, hv2, hv2', r2⟩ := setter_regs c2 f2 h2
  have e1 := (r1 s).2
  have e2 := (r2 s).2
  have e21 := (r2 (c1.run s)).2
  have e12 := (r1 (c2.run s)).2
  have e11 := (r1 (c1.run s)).2
  have l1 := field_word_lt (s.bus.dev.regs 0) (0xFFFF ^^^ f1) v1 hv1'
  have l2 := field_word_lt (s.bus.dev.regs 0) (0xFFFF ^^^ f2) v2 hv2'
  rw [e1, Nat.mod_eq_of_lt l1] at e21 e11
  rw [e2, Nat.mod_eq_of_lt l2] at e12
  refine ⟨?_, ?_, ?_⟩
  · intro hd
    have hd' : f2 &&& f1 = 0 := by rw [Nat.and_comm]; exact hd
    rw [e21, e12]
    exact field_updates_commute _ _ _ _ _
      (and_complement_of_disjoint v1 f1 f2 hv1 hd hv1')
      (and_complement_of_disjoint v2 f2 f1 hv2 hd' hv2')
  · intro hf
    subst hf
    rw [e21, e2]
    exact field_update_last_wins _ _ _ _ (and_complement_of_inside v1 f1 hv1 hv1')
  · rw [e11, e1]
    exact field_update_last_wins _ _ _ _ (and_complement_of_inside v1 f1 hv1 hv1')

theorem setters_commute_witness :
    0x1800 &&& 0x0007 = 0 ∧
    (Call.run (.setOperatingMode .powerDown) (Call.run (.setPgaGain .g8)
        ⟨⟨0x40, 100, Double.nan⟩, TwoWire.fresh 0x399F⟩)).bus.dev.regs 0 =
      (Call.run (.setPgaGain .g8) (Call.run (.setOperatingMode .powerDown)
        ⟨⟨0x40, 100, Double.nan⟩, TwoWire.fresh 0x399F⟩)).bus.dev.regs 0 ∧
    (Call.run (.setPgaGain .g8) (Call.run (.setPgaGain .g8)
        ⟨⟨0x40, 100, Double.nan⟩, TwoWire.fresh 0x399F⟩)).bus.dev.regs 0 =
      (Call.run (.setPgaGain .g8)
        ⟨⟨0x40, 100, Double.nan⟩, TwoWire.fresh 0x399F⟩).bus.dev.regs 0 :=
  ⟨by decide,
    (setters_commute ⟨⟨0x40, 100, Double.nan⟩, TwoWire.fresh 0x399F⟩ (.setPgaGain .g8)
      (.setOperatingMode .powerDown) 0x1800 0x0007 rfl rfl).1 (by decide),
    (setters_commute ⟨⟨0x40, 100, Double.nan⟩, TwoWire.fresh 0x399F⟩ (.setPgaGain .g8)
      (.setOperatingMode .powerDown) 0x1800 0x0007 rfl rfl).2.2⟩

end INA219

/-! ## The domain of the calibration quotient -/

namespace Double

theorem ofNat_zero : ofNat 0 = finite false 0 0 := rfl

theorem zero_div_finite (s : Bool) (e : Int) (y : Double) (m' : Nat) (e' : Int)
    (hy : y = finite false m' e') (hm : 0 < m') : (finite s 0 e).div y = finite s 0 0 := by
  subst hy
  simp [div, hm.ne', round]

theorem zero_mul_finite (s : Bool) (e : Int) (s' : Bool) (m' : Nat) (e' : Int) :
    (finite s 0 e).mul (finite s' m' e') = finite (xor s s') 0 0 := by
  simp [mul, round]

theorem mul_zero_finite (s : Bool) (m : Nat) (e : Int) (s' : Bool) (e' : Int) :
    (finite s m e).mul (finite s' 0 e') = finite (xor s s') 0 0 := by
  simp [mul, round]

theorem ofNat_normal (n : Nat) (hn : 0 < n) : ∃ m e, ofNat n = finite false m e ∧ 0 < m := by
  obtain ⟨m, e, h, hm, _⟩ := round_normal n 1 0 hn (by norm_num)
  exact ⟨m, e, h, hm⟩

theorem ofNat_div_thousand (n : Nat) :
    ∃ m e, (ofNat n).div (lit 1000 1) = finite false m e ∧ (m = 0 ↔ n = 0) := by
  obtain ⟨mk, ek, hk, hmk⟩ := ofNat_normal 1000 (by norm_num)
  have hlit : lit 1000 1 = finite false mk ek := hk
  rcases Nat.eq_zero_or_pos n with h0 | hpos
  · subst h0
    refine ⟨0, 0, ?_, by simp⟩
    rw [ofNat_zero]
    exact zero_div_finite false 0 _ mk ek hlit hmk
  · obtain ⟨mn, en, hn, hmn⟩ := ofNat_normal n hpos
    rw [hn, hlit]
    obtain ⟨m, e, h, hm, _⟩ := round_normal mn mk (en - ek) hmn hmk
    refine ⟨m, e, ?_, by omega⟩
    rw [← h]
    simp [div, hmk.ne']

end Double

theorem currentLsb_cases (I : Nat) :
    ∃ m e, ((Double.ofNat I).div (Double.lit 1000 1)).div (Double.ofNat 32768) =
      Double.finite false m e ∧ (m = 0 ↔ I = 0) := by
  obtain ⟨m1, e1, h1, hz1⟩ := Double.ofNat_div_thousand I
  obtain ⟨mk, ek, hk, hmk⟩ := Double.ofNat_normal 32768 (by norm_num)
  rw [h1, hk]
  rcases Nat.eq_zero_or_pos m1 with h0 | hpos
  · subst h0
    exact ⟨0, 0, Double.zero_div_finite false e1 _ mk ek rfl hmk, by simpa using hz1⟩
  · obtain ⟨m, e, h, hm, _⟩ := Double.round_normal m1 mk (e1 - ek) hpos hmk
    refine ⟨m, e, ?_, ?_⟩
    · rw [← h]
      simp [Double.div, hmk.ne']
    · constructor
      · intro hm0; omega
      · intro hI; have := hz1.2 hI; omega

theorem divisor_cases (I R : Nat) :
    ∃ m e, (((Double.ofNat I).div (Double.lit 1000 1)).div (Double.ofNat 32768)).mul
        ((Double.ofNat R).div (Double.lit 1000 1)) = Double.finite false m e ∧
      (m = 0 ↔ I = 0 ∨ R = 0) := by
  obtain ⟨m1, e1, h1, hz1⟩ := currentLsb_cases I
  obtain ⟨m2, e2, h2, hz2⟩ := Double.ofNat_div_thousand R
  rw [h1, h2]
  rcases Nat.eq_zero_or_pos m1 with h0 | hpos1
  · subst h0
    exact ⟨0, 0, Double.zero_mul_finite false e1 false m2 e2, by simp [hz1.1 rfl]⟩
  · rcases Nat.eq_zero_or_pos m2 with h0 | hpos2
    · subst h0
      exact ⟨0, 0, Double.mul_zero_finite false m1 e1 false e2, by simp [hz2.1 rfl]⟩
    · obtain ⟨m, e, h, hm, _⟩ := Double.round_normal (m1 * m2) 1 (e1 + e2)
        (Nat.mul_pos hpos1 hpos2) (by norm_num)
      refine ⟨m, e, ?_, ?_⟩
      · rw [← h]
        simp [Double.mul]
      · constructor
        · intro hm0; omega
        · rintro (hI | hR)
          · have := hz1.2 hI; omega
          · have := hz2.2 hR; omega

theorem calibrationQuotient_inf (I R : Nat) (h : I = 0 ∨ R = 0) :
    calibrationQuotient I R = Double.inf false := by
  obtain ⟨m, e, hd, hz⟩ := divisor_cases I R
  have hm : m = 0 := hz.2 h
  subst hm
  obtain ⟨mk, ek, hk, hmk, _⟩ := Double.round_normal 4096 100000 0 (by norm_num) (by norm_num)
  have hlit : Double.lit 4096 100000 = Double.finite false mk ek := hk
  unfold calibrationQuotient
  rw [hd, hlit]
  simp [Double.div, hmk.ne']

theorem quotient_fits_iff (P : Nat) (hP : 0 < P) : 1342177280 / P < 65536 ↔ 20480 < P := by
  rw [Nat.div_lt_iff_lt_mul hP]
  omega

set_option maxRecDepth 100000 in
theorem toUInt16_quotient_100_100 : Double.toUInt16 (calibrationQuotient 100 100) = 3145 := by
  decide

namespace INA219

/-- C18. For 16-bit `I` and `R`: the divisor `currentLsb * (R / 1000.0)` of the
calibration quotient is zero exactly when `I = 0` or `R = 0`, and the quotient is then
an infinity; for `I > 0`, `R > 0` the value `floor (1342177280 / (I * R))` fits in 16
bits exactly when `I * R > 20480`, and only then is it the value returned.  For
`I = 100`, `R = 100` it is 134217, which does not fit; the value returned (3145) is
another one. -/
theorem calibration_quotient_domain (self : INA219) (I : Nat) (hI : I < 65536)
    (hR : self.m_rShuntValue < 65536) :
    (((self.calculateCalibrationValue I).2.m_currentLsb.mul
        ((Double.ofNat self.m_rShuntValue).div (Double.lit 1000 1))).isZero = true ↔
      I = 0 ∨ self.m_rShuntValue = 0) ∧
    (I = 0 ∨ self.m_rShuntValue = 0 →
      (calibrationQuotient I self.m_rShuntValue).isFinite = false) ∧
    (0 < I → 0 < self.m_rShuntValue →
      (1342177280 / (I * self.m_rShuntValue) < 65536 ↔ 20480 < I * self.m_rShuntValue)) ∧
    (0 < I → 0 < self.m_rShuntValue →
      ((self.calculateCalibrationValue I).1 = 1342177280 / (I * self.m_rShuntValue) ↔
        20480 < I * self.m_rShuntValue)) ∧
    (1342177280 / (100 * 100) = 134217 ∧ ¬ (134217 < 65536) ∧
      ((⟨self.m_i2cAddress, 100, self.m_currentLsb⟩ : INA219).calculateCalibrationValue 100).1
        ≠ 134217) := by
  refine ⟨?_, ?_, ?_, ?_, ?_⟩
  · obtain ⟨m, e, hd, hz⟩ := divisor_cases I self.m_rShuntValue
    have hdiv : (self.calculateCalibrationValue I).2.m_currentLsb.mul
        ((Double.ofNat self.m_rShuntValue).div (Double.lit 1000 1)) =
        Double.finite false m e := hd
    rw [hdiv, ← hz]
    simp [Double.isZero]
  · intro h
    rw [calibrationQuotient_inf I _ h]
    rfl
  · intro hI0 hR0
    exact quotient_fits_iff _ (Nat.mul_pos hI0 hR0)
  · intro hI0 hR0
    have hret : (self.calculateCalibrationValue I).1 =
        1342177280 / (I * self.m_rShuntValue) % 65536 := by
      rw [calculateCalibrationValue_eq]
      show Double.toUInt16 (calibrationQuotient I self.m_rShuntValue) = _
      unfold Double.toUInt16
      rw [calibrationQuotient_trunc I self.m_rShuntValue hI0 hI hR0 hR]
      omega
    have hfit := quotient_fits_iff _ (Nat.mul_pos hI0 hR0)
    rw [hret, ← hfit]
    constructor
    · intro h
      rw [← h]
      exact Nat.mod_lt _ (by norm_num)
    · intro h
      exact Nat.mod_eq_of_lt h
  · refine ⟨by norm_num, by norm_num, ?_⟩
    rw [calculateCalibrationValue_mk, toUInt16_quotient_100_100]
    show (3145 : Nat) ≠ 134217
    decide

theorem calibration_quotient_domain_witness :
    ((⟨0x40, 100, Double.nan⟩ : INA219).calculateCalibrationValue 3200).1 =
        1342177280 / (3200 * 100) ↔ 20480 < 3200 * 100 :=
  (calibration_quotient_domain ⟨0x40, 100, Double.nan⟩ 3200 (by decide) (by decide)).2.2.2.1
    (by decide) (by decide)

end INA219

/-! ## Signed values -/

namespace Double

theorem toRat_neg (x : Double) : x.neg.toRat = -x.toRat := by
  cases x with
  | finite s m e => cases s <;> simp [neg, toRat]
  | inf s => simp [neg, toRat]
  | nan => simp [neg, toRat]

theorem round_true (n d : Nat) (s : Int) : round true n d s = (round false n d s).neg := by
  unfold round
  split_ifs <;> rfl

theorem mul_finite (sa : Bool) (ma : Nat) (ea : Int) (sb : Bool) (mb : Nat) (eb : Int) :
    (finite sa ma ea).mul (finite sb mb eb) = round (xor sa sb) (ma * mb) 1 (ea + eb) := rfl

theorem neg_mul_finite (sa : Bool) (ma : Nat) (ea : Int) (mb : Nat) (eb : Int) :
    (finite sa ma ea).neg.mul (finite false mb eb) =
      ((finite sa ma ea).mul (finite false mb eb)).neg := by
  cases sa
  · show round true _ _ _ = (round false _ _ _).neg
    exact round_true _ _ _
  · show round false _ _ _ = (round true _ _ _).neg
    rw [round_true]
    unfold round
    split_ifs <;> rfl

theorem ofInt_of_nonneg (s : Int) (h : 0 ≤ s) : ofInt s = ofNat s.toNat := by
  unfold ofInt ofNat
  have h1 : decide (s < 0) = false := by simp [h]
  have h2 : s.natAbs = s.toNat := by omega
  rw [h1, h2]

theorem ofInt_of_neg (s : Int) (h : s < 0) : ofInt s = (ofNat s.natAbs).neg := by
  unfold ofInt ofNat
  have h1 : decide (s < 0) = true := by simp [h]
  rw [h1, round_true]

end Double

theorem toInt16_eq (r : Nat) (hr : r < 65536) :
    toInt16 r = if r < 0x8000 then (r : Int) else (r : Int) - 65536 := by
  unfold toInt16
  rw [Nat.mod_eq_of_lt hr]

theorem toInt16_eq_signed16 (r : Nat) (hr : r < 65536) : toInt16 r = signed16 r := by
  unfold toInt16 signed16
  rw [Nat.mod_eq_of_lt hr]

namespace INA219

end INA219

/-! ## Power and current -/

namespace Double

theorem near_self (m : Nat) (e : Int) (hm : 0 < m) (hm2 : m < 2 ^ 53) :
    Near 0 (finite false m e) (finite false m e).toRat :=
  ⟨m, e, rfl, hm, hm2, by simp, by simp⟩

/-- Multiplication by a power of two is exact. -/
theorem ofNat_two_pow_mul (p m : Nat) (e : Int) (hp : p < 53) (hm : 0 < m) (hm2 : m < 2 ^ 53) :
    ((ofNat (2 ^ p)).mul (finite false m e)).toRat = 2 ^ p * (finite false m e).toRat := by
  have hpos : 0 < 2 ^ p := Nat.pow_pos (by norm_num)
  have hlt : 2 ^ p < 2 ^ 53 := Nat.pow_lt_pow_right (by norm_num) hp
  obtain ⟨mx, ex, hx, hmx, _⟩ := round_normal (2 ^ p) 1 0 hpos (by norm_num)
  have hof : ofNat (2 ^ p) = finite false mx ex := hx
  have hval := ofNat_exact (2 ^ p) hpos hlt
  rw [hof, toRat_finite] at hval
  have hE : (2 : ℚ) ^ ex ≠ 0 := by positivity
  have hmx' : (mx : ℚ) = 2 ^ p * (2 : ℚ) ^ (-ex) := by
    rw [zpow_neg, ← div_eq_mul_inv, eq_div_iff hE, hval]
    push_cast
    ring
  have hratio : (((mx * m : Nat) : ℚ)) / ((1 : Nat) : ℚ) = (m : ℚ) * (2 : ℚ) ^ ((p : Int) - ex) := by
    rw [zpow_sub₀ (by norm_num), zpow_natCast]
    push_cast
    rw [hmx', zpow_neg]
    field_simp
    ring
  rw [hof, mul_finite]
  show (round false (mx * m) 1 (ex + e)).toRat = _
  rw [round_exact (mx * m) 1 m (ex + e) ((p : Int) - ex) (Nat.mul_pos hmx hm) (by norm_num) hm2
    hratio, toRat_finite, hratio, zpow_sub₀ (by norm_num), zpow_add₀ (by norm_num),
    zpow_natCast]
  field_simp
  ring

/-- The sign and the size of the product of an integer with a positive double. -/
theorem ofInt_mul_bounds (s : Int) (hs : s.natAbs < 2 ^ 53) (m : Nat) (e : Int) (hm : 0 < m)
    (hm2 : m < 2 ^ 53) :
    (s = 0 → ((ofInt s).mul (finite false m e)).toRat = 0) ∧
    (0 < s → 0 < ((ofInt s).mul (finite false m e)).toRat ∧
      ((ofInt s).mul (finite false m e)).toRat ≤
        (s : ℚ) * (finite false m e).toRat * (1 + eps)) ∧
    (s < 0 → ((ofInt s).mul (finite false m e)).toRat < 0 ∧
      -((ofInt s).mul (finite false m e)).toRat ≤
        -(s : ℚ) * (finite false m e).toRat * (1 + eps)) := by
  have hy := near_self m e hm hm2
  refine ⟨?_, ?_, ?_⟩
  · intro h0
    subst h0
    have h0 : ofInt 0 = finite false 0 0 := rfl
    rw [h0, mul_finite]
    simp [round, toRat]
  · intro hpos
    obtain ⟨n, rfl⟩ : ∃ n : Nat, s = (n : Int) := ⟨s.toNat, by omega⟩
    have hna : ((n : Int)).natAbs = n := by simp
    have hto : ((n : Int)).toNat = n := by simp
    rw [hna] at hs
    have hn : 0 < n := by omega
    have hnear := mul_near (ofNat_near n hn hs) hy
    obtain ⟨_, hX⟩ := hnear.pos
    obtain ⟨_, _, _, _, _, _, h2⟩ := hnear
    rw [ofInt_of_nonneg _ hpos.le, hto]
    have hcast : (((n : Int) : Int) : ℚ) = (n : ℚ) := by push_cast; rfl
    rw [hcast]
    refine ⟨hX, ?_⟩
    simpa using h2
  · intro hneg
    obtain ⟨n, rfl⟩ : ∃ n : Nat, s = -(n : Int) := ⟨s.natAbs, by omega⟩
    have hna : (-(n : Int)).natAbs = n := by simp
    rw [hna] at hs
    have hn : 0 < n := by omega
    have hnear := mul_near (ofNat_near n hn hs) hy
    obtain ⟨_, hX⟩ := hnear.pos
    obtain ⟨_, _, _, _, _, _, h2⟩ := hnear
    obtain ⟨mn, en, hofn, _, _⟩ := round_normal n 1 0 hn (by norm_num)
    have hofn' : ofNat n = finite false mn en := hofn
    rw [ofInt_of_neg _ hneg, hna, hofn', neg_mul_finite, toRat_neg, ← hofn']
    have hcast : ((-(n : Int) : Int) : ℚ) = -(n : ℚ) := by push_cast; rfl
    rw [hcast, neg_neg, neg_neg]
    refine ⟨by linarith, ?_⟩
    simpa using h2

end Double

namespace INA219

theorem getCurrentValue_fst (self : INA219) (w : TwoWire) :
    (self.getCurrentValue w).1 =
      (Double.ofInt (signed16 (self.getRegisterValue .current w).1)).mul self.m_currentLsb := by
  have hlt : (self.getRegisterValue .current w).1 < 65536 := by
    rw [getRegisterValue_fst]; exact Nat.mod_lt _ (by norm_num)
  rw [← toInt16_eq_signed16 _ hlt]
  rfl

theorem read_lt (self : INA219) (reg : registers) (w : TwoWire) :
    (self.getRegisterValue reg w).1 < 65536 := by
  rw [getRegisterValue_fst]; exact Nat.mod_lt _ (by norm_num)

end INA219

/-! ## The current against the expected maximum -/

namespace Double

theorem round_finite (b : Bool) (n d : Nat) (s : Int) : ∃ m e, round b n d s = finite b m e := by
  unfold round
  split_ifs
  · exact ⟨_, _, rfl⟩
  · exact ⟨_, _, rfl⟩

theorem mul_zero_toRat (x : Double) (hx : ∃ b m e, x = finite b m e) (e' : Int) :
    (x.mul (finite false 0 e')).toRat = 0 := by
  obtain ⟨b, m, e, rfl⟩ := hx
  rw [mul_zero_finite]
  simp [toRat]

theorem ofInt_finite (s : Int) : ∃ b m e, ofInt s = finite b m e := by
  obtain ⟨m, e, h⟩ := round_finite (decide (s < 0)) s.natAbs 1 0
  exact ⟨_, m, e, h⟩

end Double

theorem signed16_cases (r : Nat) (hr : r < 65536) :
    (r ≤ 0x7FFF ∧ signed16 r = (r : Int)) ∨
    (r = 0x8000 ∧ signed16 r = -32768) ∨
    (0x8000 < r ∧ signed16 r < 0 ∧ -32767 ≤ signed16 r) := by
  unfold signed16
  split_ifs <;> omega

theorem margin_below_full_scale :
    (32767 : ℚ) * (1 + Double.eps) < 32768 ∧
    (32767 : ℚ) / 32768 * ((1 + Double.eps) * (1 + Double.eps)) < 1 := by
  unfold Double.eps
  constructor <;> norm_num

/-- The size of `s * currentLsb` when currentLsb is the positive double `A / 32768`. -/
theorem current_magnitude (s : Int) (hs1 : -32768 ≤ s) (hs2 : s ≤ 32767) (m : Nat) (e : Int) (hm : 0 < m)
    (hm2 : m < 2 ^ 53) (A : ℚ) (hA : (Double.finite false m e).toRat = A / 2 ^ 15) :
    (0 ≤ s → 0 ≤ ((Double.ofInt s).mul (Double.finite false m e)).toRat) ∧
    (s = -32768 → |((Double.ofInt s).mul (Double.finite false m e)).toRat| = A) ∧
    (s ≠ -32768 → |((Double.ofInt s).mul (Double.finite false m e)).toRat| ≤
      32767 / 32768 * A * (1 + Double.eps)) := by
  have hL := Double.toRat_pos m e hm
  have hApos : 0 < A := by
    rw [hA] at hL
    have : (0 : ℚ) < 2 ^ 15 := by positivity
    exact (div_pos_iff_of_pos_right this).1 hL
  have hEpos : (0 : ℚ) < 1 + Double.eps := by linarith [Double.one_le_E]
  obtain ⟨b0, bpos, bneg⟩ := Double.ofInt_mul_bounds s
    (lt_of_le_of_lt (by omega : s.natAbs ≤ 32768) (by norm_num)) m e hm hm2
  rw [hA] at bpos bneg
  refine ⟨?_, ?_, ?_⟩
  · intro h
    rcases h.lt_or_eq with hp | hz
    · exact (bpos hp).1.le
    · rw [b0 hz.symm]
  · intro h
    subst h
    have hneg : Double.ofInt (-32768) = (Double.ofNat (2 ^ 15)).neg := by decide
    obtain ⟨m1, e1, h1, _, _⟩ := Double.round_normal (2 ^ 15) 1 0 (by norm_num) (by norm_num)
    have hof : Double.ofNat (2 ^ 15) = Double.finite false m1 e1 := h1
    have hex := Double.ofNat_two_pow_mul 15 m e (by norm_num) hm hm2
    rw [hneg, hof, Double.neg_mul_finite, Double.toRat_neg, ← hof, hex, hA, abs_neg]
    have : (2 : ℚ) ^ 15 * (A / 2 ^ 15) = A := by field_simp
    rw [this, abs_of_pos hApos]
  · intro hne
    rcases lt_trichotomy s 0 with hn | hz | hp
    · obtain ⟨h1, h2⟩ := bneg hn
      rw [abs_of_neg h1]
      have hs' : -(s : ℚ) ≤ 32767 := by
        have : -s ≤ 32767 := by omega
        exact_mod_cast this
      calc -((Double.ofInt s).mul (Double.finite false m e)).toRat
          ≤ -(s : ℚ) * (A / 2 ^ 15) * (1 + Double.eps) := h2
        _ ≤ 32767 * (A / 2 ^ 15) * (1 + Double.eps) := by
            apply mul_le_mul_of_nonneg_right _ hEpos.le
            exact mul_le_mul_of_nonneg_right hs' (by positivity)
        _ = 32767 / 32768 * A * (1 + Double.eps) := by ring
    · rw [b0 hz, abs_zero]
      positivity
    · obtain ⟨h1, h2⟩ := bpos hp
      rw [abs_of_pos h1]
      have hs' : (s : ℚ) ≤ 32767 := by
        have : s ≤ 32767 := by omega
        exact_mod_cast this
      calc ((Double.ofInt s).mul (Double.finite false m e)).toRat
          ≤ (s : ℚ) * (A / 2 ^ 15) * (1 + Double.eps) := h2
        _ ≤ 32767 * (A / 2 ^ 15) * (1 + Double.eps) := by
            apply mul_le_mul_of_nonneg_right _ hEpos.le
            exact mul_le_mul_of_nonneg_right hs' (by positivity)
        _ = 32767 / 32768 * A * (1 + Double.eps) := by ring

theorem signed16_range (r : Nat) (hr : r < 65536) : -32768 ≤ signed16 r ∧ signed16 r ≤ 32767 := by
  unfold signed16
  split_ifs <;> omega

namespace INA219

theorem expected_maximum_near (I : Nat) (hI : 0 < I) (hI2 : I < 65536) :
    Double.Near 1 ((Double.ofNat I).div (Double.lit 1000 1)) ((I : ℚ) / 1000) := by
  have h1 := Double.div_near (Double.ofNat_near I hI (by omega))
    (Double.ofNat_near 1000 (by norm_num) (by norm_num))
  have e2 : Double.lit 1000 1 = Double.ofNat 1000 := rfl
  rw [e2]
  simpa using h1

set_option maxRecDepth 100000 in
theorem full_scale_negative_3200 :
    (Double.ofInt (signed16 0x8000)).mul (Double.finite false 7205759403792794 (-66)) =
      Double.finite true 7205759403792794 (-51) := by decide

theorem full_scale_negative_3200_size :
    (3200 : ℚ) / 1000 < |(Double.finite true 7205759403792794 (-51)).toRat| := by
  have h : (Double.finite true 7205759403792794 (-51)).toRat =
      -((7205759403792794 : ℚ) / 2 ^ 51) := by
    simp only [Double.toRat]
    rw [zpow_neg]
    norm_num
  rw [h, abs_neg, abs_of_pos (by norm_num)]
  norm_num

/-- C19 (as amended). After `calculateCalibrationValue I` (16-bit `I`) has stored
currentLsb, for every 16-bit word `r` read from the current register the magnitude of
`getCurrentValue`'s result never exceeds the double `I / 1000.0`; for `I > 0` it equals
that double exactly for raw 0x8000 and for no other word; for raw 0x0000 .. 0x7FFF the
result is non-negative and, for `I > 0`, strictly below both that double and the
rational `I / 1000`.  The double `I / 1000.0` is within one rounding of the rational
`I / 1000`; for every word but 0x8000 the magnitude is strictly below `I / 1000`, and
for every word it is at most `I / 1000 * (1 + 2 ^ (-52))`.  For `I = 3200` and raw
0x8000 the result is the double `-7205759403792794 * 2 ^ (-51)`, whose magnitude is
above 3200 / 1000. -/
theorem current_within_expected_maximum (self : INA219) (I : Nat) (w : TwoWire)
    (hI : I < 65536) :
    |((self.calculateCalibrationValue I).2.getCurrentValue w).1.toRat| ≤
      ((Double.ofNat I).div (Double.lit 1000 1)).toRat ∧
    (0 < I →
      (|((self.calculateCalibrationValue I).2.getCurrentValue w).1.toRat| =
          ((Double.ofNat I).div (Double.lit 1000 1)).toRat ↔
        ((self.calculateCalibrationValue I).2.getRegisterValue .current w).1 = 0x8000)) ∧
    (((self.calculateCalibrationValue I).2.getRegisterValue .current w).1 ≤ 0x7FFF →
      0 ≤ ((self.calculateCalibrationValue I).2.getCurrentValue w).1.toRat ∧
      (0 < I → ((self.calculateCalibrationValue I).2.getCurrentValue w).1.toRat <
        ((Double.ofNat I).div (Double.lit 1000 1)).toRat) ∧
      (0 < I → ((self.calculateCalibrationValue I).2.getCurrentValue w).1.toRat <
        (I : ℚ) / 1000)) ∧
    (0 < I → Double.Near 1 ((Double.ofNat I).div (Double.lit 1000 1)) ((I : ℚ) / 1000)) ∧
    (0 < I → ((self.calculateCalibrationValue I).2.getRegisterValue .current w).1 ≠ 0x8000 →
      |((self.calculateCalibrationValue I).2.getCurrentValue w).1.toRat| < (I : ℚ) / 1000) ∧
    |((self.calculateCalibrationValue I).2.getCurrentValue w).1.toRat| ≤
      (I : ℚ) / 1000 * (1 + Double.eps) ∧
    (I = 3200 → ((self.calculateCalibrationValue I).2.getRegisterValue .current w).1 = 0x8000 →
      ((self.calculateCalibrationValue I).2.getCurrentValue w).1 =
          Double.finite true 7205759403792794 (-51) ∧
      (3200 : ℚ) / 1000 < |((self.calculateCalibrationValue I).2.getCurrentValue w).1.toRat|) := by
  have hr := read_lt (self.calculateCalibrationValue I).2 .current w
  have hcur := getCurrentValue_fst (self.calculateCalibrationValue I).2 w
  have hlsb : (self.calculateCalibrationValue I).2.m_currentLsb =
      ((Double.ofNat I).div (Double.lit 1000 1)).div (Double.ofNat 32768) := rfl
  rw [hlsb] at hcur
  have h3200 : I = 3200 →
      ((self.calculateCalibrationValue I).2.getRegisterValue .current w).1 = 0x8000 →
      ((self.calculateCalibrationValue I).2.getCurrentValue w).1 =
          Double.finite true 7205759403792794 (-51) ∧
      (3200 : ℚ) / 1000 <
        |((self.calculateCalibrationValue I).2.getCurrentValue w).1.toRat| := by
    intro h1 h2
    subst h1
    have hv : ((self.calculateCalibrationValue 3200).2.getCurrentValue w).1 =
        Double.finite true 7205759403792794 (-51) := by
      rw [hcur, h2, currentLsb_3200]
      exact full_scale_negative_3200
    rw [hv]
    exact ⟨rfl, full_scale_negative_3200_size⟩
  obtain ⟨hm1, hm2⟩ := margin_below_full_scale
  rcases Nat.eq_zero_or_pos I with hI0 | hIpos
  · -- no expected current: currentLsb and every reading are zero
    subst hI0
    obtain ⟨ml, el, hl, hzl⟩ := currentLsb_cases 0
    have hml : ml = 0 := hzl.2 rfl
    subst hml
    obtain ⟨ma, ea, ha, hza⟩ := Double.ofNat_div_thousand 0
    have hma : ma = 0 := hza.2 rfl
    subst hma
    have hzero : ((self.calculateCalibrationValue 0).2.getCurrentValue w).1.toRat = 0 := by
      rw [hcur, hl]
      exact Double.mul_zero_toRat _ (Double.ofInt_finite _) el
    have hA : ((Double.ofNat 0).div (Double.lit 1000 1)).toRat = 0 := by
      rw [ha]; simp [Double.toRat]
    rw [hzero, hA]
    refine ⟨by simp, fun h => absurd h (lt_irrefl 0),
      fun _ => ⟨le_refl 0, fun h => absurd h (lt_irrefl 0), fun h => absurd h (lt_irrefl 0)⟩,
      fun h => absurd h (lt_irrefl 0), fun h => absurd h (lt_irrefl 0), by simp,
      fun h => absurd h (by decide)⟩
  · have hnear := expected_maximum_near I hIpos hI
    have hnear0 := hnear
    obtain ⟨hIq, hApos⟩ := hnear.pos
    obtain ⟨ma, ea, ha, hma, hma2, _, hup⟩ := hnear
    rw [pow_one] at hup
    obtain ⟨hval, ml, el, hl, hml, hml2⟩ :=
      Double.div_two_pow_exact _ ma ea 15 ha hma hma2 (by norm_num)
    have e15 : Double.ofNat (2 ^ 15) = Double.ofNat 32768 := rfl
    rw [e15] at hval hl
    rw [hl] at hcur hval
    obtain ⟨hs1, hs2⟩ := signed16_range _ hr
    obtain ⟨c1, c2, c3⟩ := current_magnitude _ hs1 hs2 ml el hml hml2 _ hval
    rw [← hcur] at c1 c2 c3
    set cur : ℚ := ((self.calculateCalibrationValue I).2.getCurrentValue w).1.toRat
    set A : ℚ := ((Double.ofNat I).div (Double.lit 1000 1)).toRat
    set r : Nat := ((self.calculateCalibrationValue I).2.getRegisterValue .current w).1
    have hbelow : signed16 r ≠ -32768 → |cur| < A := by
      intro hne
      calc |cur| ≤ 32767 / 32768 * A * (1 + Double.eps) := c3 hne
        _ = A * (32767 * (1 + Double.eps)) / 32768 := by ring
        _ < A * 32768 / 32768 := by
            apply div_lt_div_of_pos_right _ (by norm_num)
            exact mul_lt_mul_of_pos_left hm1 hApos
        _ = A := by field_simp
    have hbelow' : signed16 r ≠ -32768 → |cur| < (I : ℚ) / 1000 := by
      intro hne
      have hE : (0 : ℚ) ≤ 1 + Double.eps := by linarith [Double.one_le_E]
      calc |cur| ≤ 32767 / 32768 * A * (1 + Double.eps) := c3 hne
        _ ≤ 32767 / 32768 * ((I : ℚ) / 1000 * (1 + Double.eps)) * (1 + Double.eps) := by
            apply mul_le_mul_of_nonneg_right _ hE
            exact mul_le_mul_of_nonneg_left hup (by norm_num)
        _ = (I : ℚ) / 1000 * (32767 / 32768 * ((1 + Double.eps) * (1 + Double.eps))) := by ring
        _ < (I : ℚ) / 1000 * 1 := mul_lt_mul_of_pos_left hm2 hIq
        _ = (I : ℚ) / 1000 := mul_one _
    have hiff : signed16 r = -32768 ↔ r = 0x8000 := by
      rcases signed16_cases r hr with ⟨h1, h2⟩ | ⟨h1, h2⟩ | ⟨h1, h2, h3⟩ <;>
        constructor <;> intro h <;> omega
    refine ⟨?_, ?_, ?_, fun _ => hnear0, ?_, ?_, h3200⟩
    · by_cases hs : signed16 r = -32768
      · exact (c2 hs).le
      · exact (hbelow hs).le
    · intro _
      rw [← hiff]
      constructor
      · intro heq
        by_contra hs
        exact absurd heq (hbelow hs).ne
      · exact c2
    · intro hle
      have hs0 : 0 ≤ signed16 r := by
        rcases signed16_cases r hr with ⟨h1, h2⟩ | ⟨h1, h2⟩ | ⟨h1, h2, h3⟩ <;> omega
      have hne : signed16 r ≠ -32768 := by omega
      exact ⟨c1 hs0, fun _ => lt_of_le_of_lt (le_abs_self cur) (hbelow hne),
        fun _ => lt_of_le_of_lt (le_abs_self cur) (hbelow' hne)⟩
    · intro _ hne
      exact hbelow' (fun h => hne (hiff.1 h))
    · by_cases hs : signed16 r = -32768
      · rw [c2 hs]
        exact hup
      · have hE : (1 : ℚ) ≤ 1 + Double.eps := Double.one_le_E
        calc |cur| ≤ (I : ℚ) / 1000 := (hbelow' hs).le
          _ = (I : ℚ) / 1000 * 1 := (mul_one _).symm
          _ ≤ (I : ℚ) / 1000 * (1 + Double.eps) := mul_le_mul_of_nonneg_left hE hIq.le

theorem current_within_expected_maximum_witness :
    |(((⟨0x40, 100, Double.nan⟩ : INA219).calculateCalibrationValue 3200).2.getCurrentValue
        (TwoWire.holding 4 0x7FFF)).1.toRat| < ((3200 : Nat) : ℚ) / 1000 :=
  (current_within_expected_maximum ⟨0x40, 100, Double.nan⟩ 3200
    (TwoWire.holding 4 0x7FFF) (by decide)).2.2.2.2.1 (by decide) (by decide)

/-- C19 (as stated) fails: for `I = 3200` and raw 0x8000 the result is the double
`-7205759403792794 * 2 ^ (-51)` (-3.2000000000000002), whose magnitude exceeds the
expected maximum current 3200 / 1000. -/
theorem current_3200_at_8000_exceeds_maximum :
    (((⟨0x40, 100, Double.nan⟩ : INA219).calculateCalibrationValue 3200).2.getCurrentValue
        (TwoWire.holding 4 0x8000)).1 = Double.finite true 7205759403792794 (-51) ∧
    ((3200 : Nat) : ℚ) / 1000 <
      |(((⟨0x40, 100, Double.nan⟩ : INA219).calculateCalibrationValue 3200).2.getCurrentValue
        (TwoWire.holding 4 0x8000)).1.toRat| := by
  have hr : ((((⟨0x40, 100, Double.nan⟩ : INA219).calculateCalibrationValue 3200).2).getRegisterValue
      .current (TwoWire.holding 4 0x8000)).1 = 0x8000 := by decide
  have hl : (((⟨0x40, 100, Double.nan⟩ : INA219).calculateCalibrationValue 3200).2).m_currentLsb =
      Double.finite false 7205759403792794 (-66) := currentLsb_3200
  rw [getCurrentValue_fst, hr, hl, full_scale_negative_3200]
  exact ⟨rfl, by exact_mod_cast full_scale_negative_3200_size⟩

end INA219
